import Mathlib

set_option maxHeartbeats 1000000
set_option maxRecDepth 16384

/-! Verification of the MCP Git test client (src/client.py): the message
framing codec (a 4-byte big-endian length prefix followed by the UTF-8 bytes
of the JSON payload, serialized with `json.dumps` and parsed with
`json.loads`), the command client `MCPGitClient.send_command`, and the test
harness `MCPGitTester` (`run_test`, `run_test_suite`). -/

mutual
/-- JSON values: the data model of `json.dumps` / `json.loads` as exercised by
the client. Strings are lists of Unicode scalar values; numbers are integers
(the client code never constructs floats, and floating-point payloads are
outside this embedding); objects are ordered key/value lists mirroring Python
dict insertion order. -/
inductive Json where
  | null : Json
  | bool (b : Bool) : Json
  | num (n : Int) : Json
  | str (s : List Char) : Json
  | arr (xs : JsonList) : Json
  | obj (members : JsonObj) : Json
inductive JsonList where
  | nil : JsonList
  | cons (hd : Json) (tl : JsonList) : JsonList
inductive JsonObj where
  | nil : JsonObj
  | cons (k : List Char) (v : Json) (tl : JsonObj) : JsonObj
end

/-- Lowercase hex digit for a value below 16, as produced by Python's
format string `"\x5cu%04x"` in the JSON encoder. -/
def hexDigitChar (d : Nat) : Char :=
  if d < 10 then Char.ofNat (48 + d) else Char.ofNat (87 + d)

/-- Four lowercase hex digits of a value below 0x10000 (Python `"%04x"`). -/
def hex4 (n : Nat) : List Char :=
  [hexDigitChar (n / 4096 % 16), hexDigitChar (n / 256 % 16),
   hexDigitChar (n / 16 % 16), hexDigitChar (n % 16)]

/-- Escaping of one character by `json.dumps` with its default
`ensure_ascii=True`: `"` and backslash get a backslash escape, the short
control escapes `\b \f \n \r \t` are used where available, printable ASCII is
kept literally, any other character below 0x10000 becomes `\uXXXX`, and
astral characters become a UTF-16 surrogate pair of `\uXXXX` escapes. -/
def escapeChar (c : Char) : List Char :=
  if c = '"' then ['\\', '"']
  else if c = '\\' then ['\\', '\\']
  else if c = '\x08' then ['\\', 'b']
  else if c = '\x0c' then ['\\', 'f']
  else if c = '\n' then ['\\', 'n']
  else if c = '\r' then ['\\', 'r']
  else if c = '\t' then ['\\', 't']
  else if 0x20 ≤ c.toNat ∧ c.toNat ≤ 0x7E then [c]
  else if c.toNat < 0x10000 then '\\' :: 'u' :: hex4 c.toNat
  else '\\' :: 'u' :: hex4 (0xD800 + (c.toNat - 0x10000) / 0x400) ++
       '\\' :: 'u' :: hex4 (0xDC00 + (c.toNat - 0x10000) % 0x400)

/-- Escape every character of a string (`json.dumps` string body). -/
def escapeString : List Char → List Char
  | [] => []
  | c :: cs => escapeChar c ++ escapeString cs

/-- A serialized JSON string: opening quote, escaped body, closing quote. -/
def dumpsStr (s : List Char) : List Char :=
  '"' :: escapeString s ++ ['"']

/-- Decimal digit character (codepoint 48 + d). -/
def digitChar (d : Nat) : Char := Char.ofNat (48 + d)

/-- Decimal digits of a natural number, most significant first, via repeated
division by 10 (Python `str(n)` for a nonnegative int). The first argument is
recursion fuel; `natDigits` supplies enough. -/
def natDigitsF : Nat → Nat → List Char
  | 0, _ => []
  | fuel + 1, n =>
    if n < 10 then [digitChar n]
    else natDigitsF fuel (n / 10) ++ [digitChar (n % 10)]

/-- Decimal representation of a natural number (Python `str(n)`, n ≥ 0). -/
def natDigits (n : Nat) : List Char := natDigitsF (n + 1) n

/-- Decimal representation of an integer (Python `str(n)`): a leading minus
sign for negative values, then the digits of the absolute value. -/
def intDigits (n : Int) : List Char :=
  if n < 0 then '-' :: natDigits n.natAbs else natDigits n.toNat

mutual
/-- `json.dumps` with default arguments, as called on src/client.py line 56:
item separator `", "`, key separator `": "`, `ensure_ascii=True`. -/
def dumps : Json → List Char
  | .null => ['n', 'u', 'l', 'l']
  | .bool b => if b then ['t', 'r', 'u', 'e'] else ['f', 'a', 'l', 's', 'e']
  | .num n => intDigits n
  | .str s => dumpsStr s
  | .arr xs => '[' :: dumpsList xs ++ [']']
  | .obj ms => '\x7b' :: dumpsMembers ms ++ ['\x7d']
/-- Array elements joined by `", "`. -/
def dumpsList : JsonList → List Char
  | .nil => []
  | .cons x .nil => dumps x
  | .cons x (.cons y tl) => dumps x ++ ',' :: ' ' :: dumpsList (.cons y tl)
/-- Object members `"key": value` joined by `", "`. -/
def dumpsMembers : JsonObj → List Char
  | .nil => []
  | .cons k v .nil => dumpsStr k ++ ':' :: ' ' :: dumps v
  | .cons k v (.cons k2 v2 tl) =>
    dumpsStr k ++ ':' :: ' ' :: dumps v ++ ',' :: ' ' :: dumpsMembers (.cons k2 v2 tl)
end

/-- Skip JSON whitespace (space, tab, newline, carriage return), as
`json.loads` does between tokens. -/
def skipWs : List Char → List Char
  | [] => []
  | c :: rest =>
    if c = ' ' ∨ c = '\t' ∨ c = '\n' ∨ c = '\r' then skipWs rest else c :: rest

/-- Value of a hex digit character, upper or lower case. -/
def hexVal (c : Char) : Option Nat :=
  if '0' ≤ c ∧ c ≤ '9' then some (c.toNat - 48)
  else if 'a' ≤ c ∧ c ≤ 'f' then some (c.toNat - 87)
  else if 'A' ≤ c ∧ c ≤ 'F' then some (c.toNat - 55)
  else none

/-- Parse exactly four hex digits (the `XXXX` of a `\uXXXX` escape). -/
def parseHex4 : List Char → Option (Nat × List Char)
  | c1 :: c2 :: c3 :: c4 :: rest =>
    match hexVal c1, hexVal c2, hexVal c3, hexVal c4 with
    | some a, some b, some c, some d => some (a * 4096 + b * 256 + c * 16 + d, rest)
    | _, _, _, _ => none
  | _ => none

/-- Greedily consume decimal digits, accumulating their value. -/
def parseDigitsAux (a : Nat) : List Char → Nat × List Char
  | [] => (a, [])
  | c :: rest =>
    if c.isDigit then parseDigitsAux (a * 10 + (c.toNat - 48)) rest
    else (a, c :: rest)

/-- True when the upcoming character cannot extend a number literal into a
float. `json.loads` parses floats (fraction or exponent part); float values
are outside this integer-only embedding, so the parser rejects them. -/
def noFloatHead : List Char → Bool
  | [] => true
  | c :: _ => !(c = '.' || c = 'e' || c = 'E')

/-- Parse an unsigned JSON integer: `0`, or a nonzero digit followed by more
digits (the JSON grammar `0|[1-9][0-9]*`; a redundant leading zero is not
consumed, matching the regex used by Python's scanner). -/
def parseUInt : List Char → Option (Nat × List Char)
  | [] => none
  | c :: rest =>
    if c = '0' then
      if noFloatHead rest then some (0, rest) else none
    else if c.isDigit then
      let p := parseDigitsAux 0 (c :: rest)
      if noFloatHead p.2 then some p else none
    else none

/-- Parse a JSON integer with optional leading minus sign. -/
def parseNumber (s : List Char) : Option (Int × List Char) :=
  match s with
  | [] => none
  | c :: rest =>
    if c = '-' then (parseUInt rest).map (fun p => (-(p.1 : Int), p.2))
    else (parseUInt (c :: rest)).map (fun p => ((p.1 : Int), p.2))

/-- Parse a JSON string body after the opening quote, returning the decoded
characters and the input after the closing quote. Handles the escapes
`\" \\ \/ \b \f \n \r \t \uXXXX` and combines UTF-16 surrogate pairs of
`\u` escapes into one scalar, as Python's scanner does; unescaped control
characters are rejected (`strict=True`). A lone surrogate escape is rejected
here (Python would keep a lone surrogate code unit, which no Lean `Char` can
represent; `json.dumps` output never contains one for scalar input). The
first argument is recursion fuel, at least the number of decoded characters
plus one. -/
def parseStringBody : Nat → List Char → Option (List Char × List Char)
  | 0, _ => none
  | fuel + 1, s =>
    match s with
    | [] => none
    | c :: rest =>
      if c = '"' then some ([], rest)
      else if c = '\\' then
        match rest with
        | [] => none
        | e :: r2 =>
          if e = '"' then (parseStringBody fuel r2).map (fun p => ('"' :: p.1, p.2))
          else if e = '\\' then (parseStringBody fuel r2).map (fun p => ('\\' :: p.1, p.2))
          else if e = '/' then (parseStringBody fuel r2).map (fun p => ('/' :: p.1, p.2))
          else if e = 'b' then (parseStringBody fuel r2).map (fun p => ('\x08' :: p.1, p.2))
          else if e = 'f' then (parseStringBody fuel r2).map (fun p => ('\x0c' :: p.1, p.2))
          else if e = 'n' then (parseStringBody fuel r2).map (fun p => ('\n' :: p.1, p.2))
          else if e = 'r' then (parseStringBody fuel r2).map (fun p => ('\r' :: p.1, p.2))
          else if e = 't' then (parseStringBody fuel r2).map (fun p => ('\t' :: p.1, p.2))
          else if e = 'u' then
            match parseHex4 r2 with
            | none => none
            | some (n, r3) =>
              if 0xD800 ≤ n ∧ n ≤ 0xDBFF then
                match r3 with
                | d1 :: d2 :: r4 =>
                  if d1 = '\\' ∧ d2 = 'u' then
                    match parseHex4 r4 with
                    | none => none
                    | some (m, r5) =>
                      if 0xDC00 ≤ m ∧ m ≤ 0xDFFF then
                        (parseStringBody fuel r5).map
                          (fun p => (Char.ofNat (0x10000 + (n - 0xD800) * 0x400 + (m - 0xDC00)) :: p.1, p.2))
                      else none
                  else none
                | _ => none
              else if 0xDC00 ≤ n ∧ n ≤ 0xDFFF then none
              else (parseStringBody fuel r3).map (fun p => (Char.ofNat n :: p.1, p.2))
          else none
      else if c.toNat < 0x20 then none
      else (parseStringBody fuel rest).map (fun p => (c :: p.1, p.2))

mutual
/-- Recursive-descent JSON value parser mirroring Python's `json` scanner:
strings, objects, arrays, `true`/`false`/`null`, and integer numbers. The
first argument is recursion fuel (each level of descent consumes one unit);
`loads` supplies enough for any input it accepts. -/
def parseValue : Nat → List Char → Option (Json × List Char)
  | 0, _ => none
  | fuel + 1, s =>
    match s with
    | [] => none
    | c :: rest =>
      if c = '"' then
        (parseStringBody fuel rest).map (fun p => (Json.str p.1, p.2))
      else if c = '\x7b' then
        match skipWs rest with
        | [] => none
        | c2 :: r2 =>
          if c2 = '\x7d' then some (Json.obj .nil, r2)
          else (parseMembersRest fuel (c2 :: r2)).map (fun p => (Json.obj p.1, p.2))
      else if c = '[' then
        match skipWs rest with
        | [] => none
        | c2 :: r2 =>
          if c2 = ']' then some (Json.arr .nil, r2)
          else (parseItemsRest fuel (c2 :: r2)).map (fun p => (Json.arr p.1, p.2))
      else if c = 't' then
        match rest with
        | 'r' :: 'u' :: 'e' :: r2 => some (Json.bool true, r2)
        | _ => none
      else if c = 'f' then
        match rest with
        | 'a' :: 'l' :: 's' :: 'e' :: r2 => some (Json.bool false, r2)
        | _ => none
      else if c = 'n' then
        match rest with
        | 'u' :: 'l' :: 'l' :: r2 => some (Json.null, r2)
        | _ => none
      else if c = '-' ∨ c.isDigit then
        (parseNumber (c :: rest)).map (fun p => (Json.num p.1, p.2))
      else none
/-- Parse the elements of a nonempty array, positioned at the first element;
after each element, whitespace then `,` (more elements) or `]` (end). -/
def parseItemsRest : Nat → List Char → Option (JsonList × List Char)
  | 0, _ => none
  | fuel + 1, s =>
    match parseValue fuel s with
    | none => none
    | some (v, r) =>
      match skipWs r with
      | ']' :: r2 => some (JsonList.cons v .nil, r2)
      | ',' :: r2 => (parseItemsRest fuel (skipWs r2)).map (fun p => (JsonList.cons v p.1, p.2))
      | _ => none
/-- Parse the members of a nonempty object, positioned at the first key:
a quoted key, whitespace, `:`, whitespace, a value, then `,` or the closing
brace. -/
def parseMembersRest : Nat → List Char → Option (JsonObj × List Char)
  | 0, _ => none
  | fuel + 1, s =>
    match s with
    | '"' :: kr =>
      match parseStringBody fuel kr with
      | none => none
      | some (k, r) =>
        match skipWs r with
        | ':' :: r2 =>
          match parseValue fuel (skipWs r2) with
          | none => none
          | some (v, r3) =>
            match skipWs r3 with
            | '\x7d' :: r4 => some (JsonObj.cons k v .nil, r4)
            | ',' :: r4 => (parseMembersRest fuel (skipWs r4)).map (fun p => (JsonObj.cons k v p.1, p.2))
            | _ => none
        | _ => none
    | _ => none
end

/-- `json.loads`: skip leading whitespace, parse one value, skip trailing
whitespace, and reject any leftover input (`Extra data`). `none` models
`json.JSONDecodeError`. The fuel `2 * length + 2` exceeds the parser's
maximum descent on any input it accepts. -/
def loads (s : List Char) : Option Json :=
  match parseValue (2 * s.length + 2) (skipWs s) with
  | some (v, rest) => if skipWs rest = [] then some v else none
  | none => none

/-- UTF-8 bytes of one scalar value (Python `str.encode("utf-8")`). -/
def utf8EncodeChar (c : Char) : List Nat :=
  if c.toNat < 0x80 then [c.toNat]
  else if c.toNat < 0x800 then
    [0xC0 + c.toNat / 64, 0x80 + c.toNat % 64]
  else if c.toNat < 0x10000 then
    [0xE0 + c.toNat / 4096, 0x80 + c.toNat / 64 % 64, 0x80 + c.toNat % 64]
  else
    [0xF0 + c.toNat / 0x40000, 0x80 + c.toNat / 4096 % 64,
     0x80 + c.toNat / 64 % 64, 0x80 + c.toNat % 64]

/-- UTF-8 encoding of a string as a byte list. -/
def utf8Encode : List Char → List Nat
  | [] => []
  | c :: cs => utf8EncodeChar c ++ utf8Encode cs

/-- A UTF-8 continuation byte (`0b10xxxxxx`). -/
def contByte (b : Nat) : Bool := 0x80 ≤ b && b < 0xC0

mutual
/-- Strict UTF-8 decoding (Python `bytes.decode("utf-8")`): rejects stray
continuation bytes, overlong forms, surrogates and out-of-range leads;
`none` models `UnicodeDecodeError`. -/
def utf8Decode : List Nat → Option (List Char)
  | [] => some []
  | b :: rest =>
    if b < 0x80 then (utf8Decode rest).map (fun cs => Char.ofNat b :: cs)
    else if 0xC2 ≤ b && b ≤ 0xDF then utf8DecodeTail2 b rest
    else if 0xE0 ≤ b && b ≤ 0xEF then utf8DecodeTail3 b rest
    else if 0xF0 ≤ b && b ≤ 0xF4 then utf8DecodeTail4 b rest
    else none
/-- Continuation of a two-byte UTF-8 sequence. -/
def utf8DecodeTail2 (b : Nat) : List Nat → Option (List Char)
  | b2 :: r =>
    if contByte b2 then
      (utf8Decode r).map (fun cs => Char.ofNat ((b - 0xC0) * 64 + (b2 - 0x80)) :: cs)
    else none
  | _ => none
/-- Continuation of a three-byte UTF-8 sequence, with overlong and
surrogate checks. -/
def utf8DecodeTail3 (b : Nat) : List Nat → Option (List Char)
  | b2 :: b3 :: r =>
    if contByte b2 && contByte b3 &&
       (b != 0xE0 || 0xA0 ≤ b2) && (b != 0xED || b2 < 0xA0) then
      (utf8Decode r).map
        (fun cs => Char.ofNat ((b - 0xE0) * 4096 + (b2 - 0x80) * 64 + (b3 - 0x80)) :: cs)
    else none
  | _ => none
/-- Continuation of a four-byte UTF-8 sequence, with overlong and range
checks. -/
def utf8DecodeTail4 (b : Nat) : List Nat → Option (List Char)
  | b2 :: b3 :: b4 :: r =>
    if contByte b2 && contByte b3 && contByte b4 &&
       (b != 0xF0 || 0x90 ≤ b2) && (b != 0xF4 || b2 < 0x90) then
      (utf8Decode r).map
        (fun cs => Char.ofNat ((b - 0xF0) * 0x40000 + (b2 - 0x80) * 4096 +
                               (b3 - 0x80) * 64 + (b4 - 0x80)) :: cs)
    else none
  | _ => none
end

/-- `int.from_bytes(bs, byteorder="big")` (src/client.py line 62). -/
def fromBytesBE (bs : List Nat) : Nat :=
  bs.foldl (fun a b => a * 256 + b) 0

/-- `n.to_bytes(4, byteorder="big")` for `n < 2^32` (src/client.py line 57). -/
def toBytes4 (n : Nat) : List Nat :=
  [n / 0x1000000 % 256, n / 0x10000 % 256, n / 256 % 256, n % 256]

/-- A single `socket.recv(n)` against a stream modelled as the list of chunks
the transport will deliver: it returns at most `n` bytes from the first
pending chunk (possibly fewer than requested), leaving the rest of that chunk
pending; an exhausted stream (EOF) yields the empty byte string. -/
def recv1 (n : Nat) : List (List Nat) → List Nat × List (List Nat)
  | [] => ([], [])
  | c :: cs => if c.length ≤ n then (c, cs) else (c.take n, c.drop n :: cs)

/-- The receive loop of src/client.py lines 65-70: while fewer than
`response_len` bytes are accumulated, `recv(min(4096, response_len - len(response_data)))`;
an empty `recv` result (EOF) breaks out of the loop. The first argument is
recursion fuel; since every iteration either stops or accumulates at least
one byte, `need + 1` units always suffice. -/
def recvLoopF : Nat → Nat → List Nat → List (List Nat) → List Nat
  | 0, _, acc, _ => acc
  | fuel + 1, need, acc, s =>
    if acc.length < need then
      match s with
      | [] => acc
      | c :: cs =>
        if c = [] then acc
        else
          let n := min 4096 (need - acc.length)
          if c.length ≤ n then recvLoopF fuel need (acc ++ c) cs
          else recvLoopF fuel need (acc ++ c.take n) (c.drop n :: cs)
    else acc

/-- Accumulate up to `need` payload bytes from the stream (lines 65-70). -/
def recvLoop (need : Nat) (s : List (List Nat)) : List Nat :=
  recvLoopF (need + 1) need [] s

/-- The decode-side failure modes of `send_command`: `bytes.decode` raising
`UnicodeDecodeError`, or `json.loads` raising `JSONDecodeError`. The source
defines no framing-specific exception type. -/
inductive DecodeError where
  | unicodeError : DecodeError
  | jsonError : DecodeError
deriving DecidableEq

/-- The response-receiving path of `send_command` (src/client.py lines
61-74): one `recv(4)` whose result — however many bytes it holds — is fed to
`int.from_bytes` as the length, the accumulation loop for that many payload
bytes, then UTF-8 decoding and `json.loads`. -/
def readMessage (s : List (List Nat)) : Except DecodeError Json :=
  let pr := recv1 4 s
  let response_len := fromBytesBE pr.1
  let response_data := recvLoop response_len pr.2
  match utf8Decode response_data with
  | none => .error .unicodeError
  | some cs =>
    match loads cs with
    | none => .error .jsonError
    | some j => .ok j

/-- The sending-side framing of src/client.py lines 56-58: the UTF-8 JSON
payload prefixed by its byte length as 4 big-endian bytes. -/
def encodeMessage (v : Json) : List Nat :=
  let request_json := utf8Encode (dumps v)
  toBytes4 request_json.length ++ request_json

/-- The exceptions `send_command` can propagate: connection failures,
`OverflowError` from `to_bytes(4, ...)` on an oversized payload, and the two
decode failures. -/
inductive ClientError where
  | connectionError : ClientError
  | overflowError : ClientError
  | unicodeError : ClientError
  | jsonError : ClientError
deriving DecidableEq

/-- Observable socket lifecycle events of one `send_command` call. -/
inductive SocketEvent where
  | created : SocketEvent
  | connected : SocketEvent
  | sent : SocketEvent
  | closed : SocketEvent
deriving DecidableEq

/-- `MCPGitClient.send_command` (src/client.py lines 29-77): create a socket,
and inside `try`: connect, serialize and frame the request, send it, read one
framed response; the `finally` block closes the socket on every exit path.
`connectOk`/`sendOk` model whether `connect`/`sendall` raise; the returned
event list records the socket lifecycle, with `closed` appended on every
path the function can take. -/
def send_command (connectOk sendOk : Bool) (command : List Char) (params : JsonObj)
    (stream : List (List Nat)) : Except ClientError Json × List SocketEvent :=
  if !connectOk then (.error .connectionError, [.created, .closed])
  else
    let request := Json.obj (.cons ['c', 'o', 'm', 'm', 'a', 'n', 'd'] (Json.str command)
      (.cons ['p', 'a', 'r', 'a', 'm', 's'] (Json.obj params) .nil))
    let request_json := utf8Encode (dumps request)
    if request_json.length < 2 ^ 32 then
      if !sendOk then (.error .connectionError, [.created, .connected, .closed])
      else
        match readMessage stream with
        | .error .unicodeError => (.error .unicodeError, [.created, .connected, .sent, .closed])
        | .error .jsonError => (.error .jsonError, [.created, .connected, .sent, .closed])
        | .ok r => (.ok r, [.created, .connected, .sent, .closed])
    else (.error .overflowError, [.created, .connected, .closed])

/-- The aggregate counters of `MCPGitTester` (src/client.py lines 91-92). -/
structure TesterState where
  tests_run : Nat
  tests_passed : Nat

/-- The zero counters set by `MCPGitTester.__init__`. -/
def initialState : TesterState := ⟨0, 0⟩

/-- One scripted test: name, command, params, the expected response status
(defaulting to `"success"`), and an optional validation function. A
validation function may itself raise (`none`) or return a boolean. -/
structure TestCase where
  name : List Char := []
  command : List Char := []
  params : JsonObj := .nil
  expected_status : List Char := ['s', 'u', 'c', 'c', 'e', 's', 's']
  validation_func : Option (Json → Option Bool) := none

/-- Association-list lookup, mirroring Python `dict.get` (first match; a
Python dict holds each key at most once). -/
def lookupKey (k : List Char) : JsonObj → Option Json
  | .nil => none
  | .cons k2 v tl => if k2 = k then some v else lookupKey k tl

/-- `response.get("status")`-style field access: on a JSON object it returns
the field (or `none` when absent, Python `None`); on any other JSON value
`.get` does not exist and an `AttributeError` is raised (`Except.error`). -/
def getField (r : Json) (k : List Char) : Except Unit (Option Json) :=
  match r with
  | .obj ms => .ok (lookupKey k ms)
  | _ => .error ()

/-- The key `"status"`. -/
def statusKey : List Char := ['s', 't', 'a', 't', 'u', 's']

/-- Python `status == expected_status` where `status` is `response.get("status")`:
true exactly when the field is present, is a string, and equals the expected
string; `None` or a non-string JSON value never equals a Python string. -/
def statusMatches (status : Option Json) (expected : List Char) : Bool :=
  match status with
  | some (.str s) => decide (s = expected)
  | _ => false

/-- `MCPGitTester.run_test` (src/client.py lines 94-141): increment
`tests_run`, then inside `try`: obtain the response (an exception from
`send_command` is modelled by `Except.error`), read its `status` field,
compare with `expected_status`, run the validation function if provided, and
pass — incrementing `tests_passed` — exactly when both checks succeed. Every
exception (from `send_command`, from `.get` on a non-dict response, or from
the validation function) is caught by the `except` clause and yields a plain
`False`. Returns the boolean result and the updated counters. -/
def run_test (st : TesterState) (tc : TestCase) (res : Except ClientError Json) :
    Bool × TesterState :=
  let st1 : TesterState := { st with tests_run := st.tests_run + 1 }
  match res with
  | .error _ => (false, st1)
  | .ok response =>
    match getField response statusKey with
    | .error _ => (false, st1)
    | .ok status =>
      let status_ok := statusMatches status tc.expected_status
      match tc.validation_func with
      | none =>
        if status_ok then (true, { st1 with tests_passed := st1.tests_passed + 1 })
        else (false, st1)
      | some f =>
        match f response with
        | none => (false, st1)
        | some validation_ok =>
          if status_ok && validation_ok then
            (true, { st1 with tests_passed := st1.tests_passed + 1 })
          else (false, st1)

/-- The validation outcome of a test case on a response: `some true` when no
validation function is configured, otherwise whatever the function yields
(`none` models the validator raising). -/
def validation_result (tc : TestCase) (response : Json) : Option Bool :=
  match tc.validation_func with
  | none => some true
  | some f => f response

/-- Whether a test passes, as a pure predicate: the response arrived, its
`status` field could be read, the status string equals `expected_status`,
and the validation outcome is `true`. -/
def test_passes (tc : TestCase) (res : Except ClientError Json) : Bool :=
  match res with
  | .error _ => false
  | .ok response =>
    match getField response statusKey with
    | .error _ => false
    | .ok status =>
      statusMatches status tc.expected_status &&
        (validation_result tc response).getD false

/-- `MCPGitTester.run_test_suite` (src/client.py lines 143-194), generalized
over the scripted test list and the per-test outcomes of `send_command`
(the remote endpoint is external): run every test in order through
`run_test`, collecting each boolean result and threading the counters. -/
def run_test_suite (st : TesterState) :
    List (TestCase × Except ClientError Json) → List Bool × TesterState
  | [] => ([], st)
  | (tc, res) :: rest =>
    let r := run_test st tc res
    let rs := run_test_suite r.2 rest
    (r.1 :: rs.1, rs.2)

mutual
/-- Fuel measure for the JSON parser: an upper bound on the descent depth
needed to re-parse a serialized value. -/
def jsize : Json → Nat
  | .null => 1
  | .bool _ => 1
  | .num _ => 1
  | .str s => s.length + 2
  | .arr xs => jsizeL xs + 2
  | .obj ms => jsizeM ms + 2
def jsizeL : JsonList → Nat
  | .nil => 0
  | .cons x tl => jsize x + jsizeL tl + 2
def jsizeM : JsonObj → Nat
  | .nil => 0
  | .cons k v tl => k.length + jsize v + jsizeM tl + 4
end

/-- The next character (if any) cannot extend a preceding number literal:
not a digit and not a fraction/exponent introducer. -/
def numBoundary : List Char → Bool
  | [] => true
  | c :: _ => !(c.isDigit || c = '.' || c = 'e' || c = 'E')

/-! ## Character-level helper lemmas -/

/-- `Char.toNat` is injective. -/
theorem charToNat_inj {c d : Char} (h : c.toNat = d.toNat) : c = d :=
  Char.ext (UInt32.ext h)

/-- Characters with different codepoints differ. -/
theorem char_ne_of_toNat_ne {c d : Char} (h : c.toNat ≠ d.toNat) : c ≠ d :=
  fun he => h (congrArg Char.toNat he)

/-- `Char.ofNat` inverts `toNat` on valid codepoints. -/
theorem toNat_ofNat_valid (n : Nat) (h : n.isValidChar) : (Char.ofNat n).toNat = n := by
  simp [Char.ofNat, h, Char.ofNatAux, Char.toNat, UInt32.toNat]

/-- `Char.ofNat` inverts `toNat` below the surrogate range. -/
theorem toNat_ofNat_lt (n : Nat) (h : n < 0xD800) : (Char.ofNat n).toNat = n :=
  toNat_ofNat_valid n (Or.inl h)

/-- Every character's codepoint avoids the surrogate range and stays below
0x110000. -/
theorem char_toNat_valid (c : Char) :
    c.toNat < 0xD800 ∨ (0xE000 ≤ c.toNat ∧ c.toNat < 0x110000) :=
  c.valid

/-- Digit test in terms of the codepoint. -/
theorem isDigit_iff (c : Char) : c.isDigit = true ↔ 48 ≤ c.toNat ∧ c.toNat ≤ 57 := by
  simp [Char.isDigit]
  exact Iff.rfl

/-- Codepoint of a decimal digit character. -/
theorem digitChar_toNat (d : Nat) (h : d < 10) : (digitChar d).toNat = 48 + d :=
  toNat_ofNat_lt (48 + d) (by omega)

/-- Decimal digit characters pass `isDigit`. -/
theorem digitChar_isDigit (d : Nat) (h : d < 10) : (digitChar d).isDigit = true := by
  rw [isDigit_iff, digitChar_toNat d h]
  omega

/-! ## Whitespace lemmas -/

/-- `skipWs` leaves input headed by a non-whitespace character unchanged. -/
theorem skipWs_cons {c : Char} (r : List Char)
    (h : ¬(c = ' ' ∨ c = '\t' ∨ c = '\n' ∨ c = '\r')) : skipWs (c :: r) = c :: r := by
  simp [skipWs, h]

/-- Non-whitespace via codepoints. -/
theorem skipWs_cons_toNat {c : Char} (r : List Char)
    (h : c.toNat ≠ 32 ∧ c.toNat ≠ 9 ∧ c.toNat ≠ 10 ∧ c.toNat ≠ 13) :
    skipWs (c :: r) = c :: r := by
  apply skipWs_cons
  rintro (rfl | rfl | rfl | rfl) <;> simp at h

/-! ## Decimal digit lemmas: `natDigits` round-trips through the digit fold -/

/-- `natDigitsF` with sufficient fuel produces a nonempty list of digit
characters whose left fold recovers the value. -/
theorem natDigitsF_spec : ∀ (fuel n : Nat), n < fuel →
    natDigitsF fuel n ≠ [] ∧
    (∀ c ∈ natDigitsF fuel n, c.isDigit = true) ∧
    ∀ a : Nat, List.foldl (fun x c => x * 10 + (c.toNat - 48)) a (natDigitsF fuel n) =
      a * 10 ^ (natDigitsF fuel n).length + n
  | 0, _, h => absurd h (by omega)
  | fuel + 1, n, h => by
    by_cases h10 : n < 10
    · refine ⟨by simp [natDigitsF, h10], ?_, ?_⟩
      · intro c hc
        simp [natDigitsF, h10] at hc
        subst hc
        exact digitChar_isDigit n h10
      · intro a
        simp [natDigitsF, h10, digitChar_toNat n h10]
    · have hdiv : n / 10 < n := Nat.div_lt_self (by omega) (by omega)
      obtain ⟨hne, hdig, hval⟩ := natDigitsF_spec fuel (n / 10) (by omega)
      refine ⟨by simp [natDigitsF, h10], ?_, ?_⟩
      · intro c hc
        simp [natDigitsF, h10] at hc
        rcases hc with hc | hc
        · exact hdig c hc
        · subst hc
          exact digitChar_isDigit (n % 10) (Nat.mod_lt n (by omega))
      · intro a
        simp only [natDigitsF, h10, if_false, List.foldl_append, List.length_append,
          List.foldl_cons, List.foldl_nil, List.length_cons, List.length_nil]
        rw [hval a, digitChar_toNat (n % 10) (Nat.mod_lt n (by omega))]
        have hpow : a * 10 ^ ((natDigitsF fuel (n / 10)).length + (0 + 1)) =
            a * 10 ^ (natDigitsF fuel (n / 10)).length * 10 := by ring
        rw [hpow]
        generalize a * 10 ^ (natDigitsF fuel (n / 10)).length = A
        omega

/-- For positive values the leading digit is not `'0'`. -/
theorem natDigitsF_head : ∀ (fuel n : Nat), n < fuel → 1 ≤ n →
    ∃ c t, natDigitsF fuel n = c :: t ∧ c ≠ '0'
  | 0, _, h, _ => absurd h (by omega)
  | fuel + 1, n, h, h1 => by
    by_cases h10 : n < 10
    · refine ⟨digitChar n, [], by simp [natDigitsF, h10], char_ne_of_toNat_ne ?_⟩
      rw [digitChar_toNat n h10]
      have h0 : ('0' : Char).toNat = 48 := rfl
      rw [h0]
      omega
    · have hdiv : n / 10 < n := Nat.div_lt_self (by omega) (by omega)
      obtain ⟨c, t, heq, hne⟩ :=
        natDigitsF_head fuel (n / 10) (by omega) (by omega)
      exact ⟨c, t ++ [digitChar (n % 10)], by simp [natDigitsF, h10, heq], hne⟩

/-- Consuming a block of digit characters shifts them into the accumulator. -/
theorem parseDigitsAux_append : ∀ (ds : List Char), (∀ c ∈ ds, c.isDigit = true) →
    ∀ (a : Nat) (rest : List Char),
    parseDigitsAux a (ds ++ rest) =
      parseDigitsAux (List.foldl (fun x c => x * 10 + (c.toNat - 48)) a ds) rest
  | [], _, a, rest => by simp
  | c :: ds, h, a, rest => by
    have hc : c.isDigit = true := h c (by simp)
    simp only [List.cons_append, parseDigitsAux, hc, if_true, List.foldl_cons]
    exact parseDigitsAux_append ds (fun x hx => h x (by simp [hx])) _ rest

/-- The digit scan stops at a non-digit (or the end of input). -/
theorem parseDigitsAux_stop (a : Nat) :
    ∀ rest : List Char, (∀ c t, rest = c :: t → c.isDigit = false) →
    parseDigitsAux a rest = (a, rest)
  | [], _ => rfl
  | c :: t, h => by simp [parseDigitsAux, h c t rfl]

/-- A number boundary starts with a non-digit. -/
theorem numBoundary_head {rest : List Char} (h : numBoundary rest = true) :
    ∀ c t, rest = c :: t → c.isDigit = false := by
  intro c t he
  subst he
  simp [numBoundary] at h
  obtain ⟨⟨⟨h1, _⟩, _⟩, _⟩ := h
  exact h1

/-- A number boundary cannot extend the literal into a float. -/
theorem numBoundary_noFloat {rest : List Char} (h : numBoundary rest = true) :
    noFloatHead rest = true := by
  cases rest with
  | nil => rfl
  | cons c t =>
    simp [numBoundary] at h
    obtain ⟨⟨⟨_, h2⟩, h3⟩, h4⟩ := h
    simp [noFloatHead, h2, h3, h4]

/-- Parsing the decimal digits of `m` followed by a number boundary yields
`m` and the boundary. -/
theorem parseUInt_natDigits (m : Nat) (rest : List Char) (hb : numBoundary rest = true) :
    parseUInt (natDigits m ++ rest) = some (m, rest) := by
  by_cases hm : m = 0
  · subst hm
    have h0 : natDigits 0 = ['0'] := rfl
    rw [h0]
    simp [parseUInt, numBoundary_noFloat hb]
  · obtain ⟨c, t, heq, hc0⟩ := natDigitsF_head (m + 1) m (by omega) (by omega)
    obtain ⟨hne, hdig, hval⟩ := natDigitsF_spec (m + 1) m (by omega)
    have heq2 : natDigits m = c :: t := heq
    have hcdig : c.isDigit = true := hdig c (by rw [heq]; simp)
    rw [heq2, List.cons_append]
    simp only [parseUInt, hc0, if_false, hcdig, if_true]
    rw [← List.cons_append, ← heq2]
    unfold natDigits
    rw [parseDigitsAux_append _ hdig 0 rest, parseDigitsAux_stop _ rest (numBoundary_head hb),
      hval 0]
    simp [numBoundary_noFloat hb]

/-! ## Hex escape lemmas -/

/-- Hex digits round-trip through `hexVal`. -/
theorem hexVal_hexDigitChar (d : Nat) (h : d < 16) : hexVal (hexDigitChar d) = some d := by
  interval_cases d <;> decide

/-- `parseHex4` inverts `hex4` on values below 0x10000. -/
theorem parseHex4_hex4 (n : Nat) (h : n < 0x10000) (rest : List Char) :
    parseHex4 (hex4 n ++ rest) = some (n, rest) := by
  have h1 := hexVal_hexDigitChar (n / 4096 % 16) (Nat.mod_lt _ (by omega))
  have h2 := hexVal_hexDigitChar (n / 256 % 16) (Nat.mod_lt _ (by omega))
  have h3 := hexVal_hexDigitChar (n / 16 % 16) (Nat.mod_lt _ (by omega))
  have h4 := hexVal_hexDigitChar (n % 16) (Nat.mod_lt _ (by omega))
  simp only [hex4, List.cons_append, List.nil_append, parseHex4, h1, h2, h3, h4,
    Option.some.injEq, Prod.mk.injEq]
  constructor
  · omega
  · trivial

/-! ## String escape round trip -/

/-- String body parsing: closing quote terminates. -/
theorem psb_close (f : Nat) (rest : List Char) :
    parseStringBody (f + 1) ('"' :: rest) = some ([], rest) := by
  simp [parseStringBody]

/-- String body parsing: a literal (unescaped, non-control) character. -/
theorem psb_lit (f : Nat) (c : Char) (rest : List Char) (h1 : ¬c = '"') (h2 : ¬c = '\\')
    (h3 : ¬(c.toNat < 0x20)) :
    parseStringBody (f + 1) (c :: rest) =
      (parseStringBody f rest).map (fun p => (c :: p.1, p.2)) := by
  simp [parseStringBody, h1, h2, h3]

/-- String body parsing: the `\"` escape. -/
theorem psb_esc_q (f : Nat) (r2 : List Char) :
    parseStringBody (f + 1) ('\\' :: '"' :: r2) =
      (parseStringBody f r2).map (fun p => ('"' :: p.1, p.2)) := by
  simp [parseStringBody]

/-- String body parsing: the `\\` escape. -/
theorem psb_esc_bs (f : Nat) (r2 : List Char) :
    parseStringBody (f + 1) ('\\' :: '\\' :: r2) =
      (parseStringBody f r2).map (fun p => ('\\' :: p.1, p.2)) := by
  simp [parseStringBody]

/-- String body parsing: the `\b` escape. -/
theorem psb_esc_b (f : Nat) (r2 : List Char) :
    parseStringBody (f + 1) ('\\' :: 'b' :: r2) =
      (parseStringBody f r2).map (fun p => ('\x08' :: p.1, p.2)) := by
  simp [parseStringBody]

/-- String body parsing: the `\f` escape. -/
theorem psb_esc_f (f : Nat) (r2 : List Char) :
    parseStringBody (f + 1) ('\\' :: 'f' :: r2) =
      (parseStringBody f r2).map (fun p => ('\x0c' :: p.1, p.2)) := by
  simp [parseStringBody]

/-- String body parsing: the `\n` escape. -/
theorem psb_esc_n (f : Nat) (r2 : List Char) :
    parseStringBody (f + 1) ('\\' :: 'n' :: r2) =
      (parseStringBody f r2).map (fun p => ('\n' :: p.1, p.2)) := by
  simp [parseStringBody]

/-- String body parsing: the `\r` escape. -/
theorem psb_esc_r (f : Nat) (r2 : List Char) :
    parseStringBody (f + 1) ('\\' :: 'r' :: r2) =
      (parseStringBody f r2).map (fun p => ('\r' :: p.1, p.2)) := by
  simp [parseStringBody]

/-- String body parsing: the `\t` escape. -/
theorem psb_esc_t (f : Nat) (r2 : List Char) :
    parseStringBody (f + 1) ('\\' :: 't' :: r2) =
      (parseStringBody f r2).map (fun p => ('\t' :: p.1, p.2)) := by
  simp [parseStringBody]

/-- String body parsing: a non-surrogate `\uXXXX` escape. -/
theorem psb_esc_u (f : Nat) (r2 : List Char) (n : Nat) (r3 : List Char)
    (hp : parseHex4 r2 = some (n, r3)) (hns : ¬(0xD800 ≤ n ∧ n ≤ 0xDBFF))
    (hns2 : ¬(0xDC00 ≤ n ∧ n ≤ 0xDFFF)) :
    parseStringBody (f + 1) ('\\' :: 'u' :: r2) =
      (parseStringBody f r3).map (fun p => (Char.ofNat n :: p.1, p.2)) := by
  simp [parseStringBody, hp, hns, hns2]

/-- String body parsing: a surrogate pair of `\uXXXX` escapes. -/
theorem psb_esc_pair (f : Nat) (r2 : List Char) (n : Nat) (r4 : List Char) (m : Nat)
    (r5 : List Char) (hp : parseHex4 r2 = some (n, '\\' :: 'u' :: r4))
    (hn : 0xD800 ≤ n ∧ n ≤ 0xDBFF) (hp2 : parseHex4 r4 = some (m, r5))
    (hm : 0xDC00 ≤ m ∧ m ≤ 0xDFFF) :
    parseStringBody (f + 1) ('\\' :: 'u' :: r2) =
      (parseStringBody f r5).map
        (fun p => (Char.ofNat (0x10000 + (n - 0xD800) * 0x400 + (m - 0xDC00)) :: p.1, p.2)) := by
  simp [parseStringBody, hp, hn, hp2, hm]

/-- Parsing an escaped string body followed by the closing quote recovers
the original characters, whatever escapes `json.dumps` chose. -/
theorem parseStringBody_escape (s : List Char) : ∀ (fuel : Nat) (rest : List Char),
    s.length < fuel →
    parseStringBody fuel (escapeString s ++ '"' :: rest) = some (s, rest) := by
  induction s with
  | nil =>
    intro fuel rest h
    cases fuel with
    | zero => omega
    | succ f => exact psb_close f rest
  | cons c cs ih0 =>
    intro fuel rest h
    cases fuel with
    | zero => omega
    | succ f =>
      have ih := ih0 f rest (by simp at h; omega)
      simp only [escapeString, List.append_assoc]
      by_cases hq : c = '"'
      · subst hq
        rw [show escapeChar '"' = ['\\', '"'] from rfl]
        simp only [List.cons_append, List.nil_append]
        rw [psb_esc_q, ih]
        rfl
      · by_cases hbs : c = '\\'
        · subst hbs
          rw [show escapeChar '\\' = ['\\', '\\'] from rfl]
          simp only [List.cons_append, List.nil_append]
          rw [psb_esc_bs, ih]
          rfl
        · by_cases hb8 : c = '\x08'
          · subst hb8
            rw [show escapeChar '\x08' = ['\\', 'b'] from rfl]
            simp only [List.cons_append, List.nil_append]
            rw [psb_esc_b, ih]
            rfl
          · by_cases hbc : c = '\x0c'
            · subst hbc
              rw [show escapeChar '\x0c' = ['\\', 'f'] from rfl]
              simp only [List.cons_append, List.nil_append]
              rw [psb_esc_f, ih]
              rfl
            · by_cases hbn : c = '\n'
              · subst hbn
                rw [show escapeChar '\n' = ['\\', 'n'] from rfl]
                simp only [List.cons_append, List.nil_append]
                rw [psb_esc_n, ih]
                rfl
              · by_cases hbr : c = '\r'
                · subst hbr
                  rw [show escapeChar '\r' = ['\\', 'r'] from rfl]
                  simp only [List.cons_append, List.nil_append]
                  rw [psb_esc_r, ih]
                  rfl
                · by_cases hbt : c = '\t'
                  · subst hbt
                    rw [show escapeChar '\t' = ['\\', 't'] from rfl]
                    simp only [List.cons_append, List.nil_append]
                    rw [psb_esc_t, ih]
                    rfl
                  · by_cases hlit : 0x20 ≤ c.toNat ∧ c.toNat ≤ 0x7E
                    · rw [show escapeChar c = [c] from by
                        simp [escapeChar, hq, hbs, hb8, hbc, hbn, hbr, hbt, hlit]]
                      simp only [List.cons_append, List.nil_append]
                      rw [psb_lit f c _ hq hbs (by omega), ih]
                      rfl
                    · by_cases hsm : c.toNat < 0x10000
                      · have hv := char_toNat_valid c
                        have hs1 : ¬(0xD800 ≤ c.toNat ∧ c.toNat ≤ 0xDBFF) := by omega
                        have hs2 : ¬(0xDC00 ≤ c.toNat ∧ c.toNat ≤ 0xDFFF) := by omega
                        rw [show escapeChar c = '\\' :: 'u' :: hex4 c.toNat from by
                          simp [escapeChar, hq, hbs, hb8, hbc, hbn, hbr, hbt, hlit, hsm]]
                        simp only [List.cons_append, List.append_assoc]
                        rw [psb_esc_u f _ c.toNat _ (parseHex4_hex4 c.toNat hsm _) hs1 hs2,
                          ih, Char.ofNat_toNat]
                        rfl
                      · have hv := char_toNat_valid c
                        have hhi : 0xD800 + (c.toNat - 0x10000) / 0x400 < 0x10000 := by omega
                        have hmod := Nat.mod_lt (c.toNat - 0x10000) (y := 0x400) (by omega)
                        have hlo : 0xDC00 + (c.toNat - 0x10000) % 0x400 < 0x10000 := by omega
                        rw [show escapeChar c =
                            '\\' :: 'u' :: hex4 (0xD800 + (c.toNat - 0x10000) / 0x400) ++
                            '\\' :: 'u' :: hex4 (0xDC00 + (c.toNat - 0x10000) % 0x400) from by
                          simp [escapeChar, hq, hbs, hb8, hbc, hbn, hbr, hbt, hlit, hsm]]
                        simp only [List.cons_append, List.append_assoc]
                        rw [psb_esc_pair f _ _ _ _ _
                          (parseHex4_hex4 _ hhi _) ⟨by omega, by omega⟩
                          (parseHex4_hex4 _ hlo _) ⟨by omega, by omega⟩, ih]
                        simp only [Option.map_some']
                        have harg : 0x10000 +
                            (0xD800 + (c.toNat - 0x10000) / 0x400 - 0xD800) * 0x400 +
                            (0xDC00 + (c.toNat - 0x10000) % 0x400 - 0xDC00) = c.toNat := by
                          omega
                        rw [harg, Char.ofNat_toNat]

/-- Parsing the serialized form of an integer followed by a number boundary
yields the integer and the boundary. -/
theorem parseNumber_intDigits (n : Int) (rest : List Char) (hb : numBoundary rest = true) :
    parseNumber (intDigits n ++ rest) = some (n, rest) := by
  by_cases hneg : n < 0
  · simp only [intDigits, hneg, if_true, List.cons_append, parseNumber, if_pos rfl]
    rw [parseUInt_natDigits n.natAbs rest hb]
    simp only [Option.map_some']
    have : -(n.natAbs : Int) = n := by omega
    rw [this]
  · have hnn : 0 ≤ n := by omega
    obtain ⟨hne, hdig, _⟩ := natDigitsF_spec (n.toNat + 1) n.toNat (by omega)
    have heq2 : intDigits n = natDigits n.toNat := by simp [intDigits, hneg]
    cases heq : natDigits n.toNat with
    | nil => exact absurd heq hne
    | cons c t =>
      have hc : c.isDigit = true := hdig c (by rw [show natDigitsF (n.toNat + 1) n.toNat = c :: t from heq]; simp)
      have hcm : c ≠ '-' := by
        apply char_ne_of_toNat_ne
        have h45 : ('-' : Char).toNat = 45 := rfl
        rw [h45]
        have := (isDigit_iff c).mp hc
        omega
      rw [heq2, heq, List.cons_append]
      simp only [parseNumber, hcm, if_false]
      rw [← List.cons_append, ← heq, parseUInt_natDigits n.toNat rest hb]
      simp only [Option.map_some']
      rw [Int.toNat_of_nonneg hnn]

/-! ## Shape facts about serialized values -/

/-- Serialized integers are nonempty. -/
theorem intDigits_ne_nil (n : Int) : intDigits n ≠ [] := by
  unfold intDigits
  split_ifs with h
  · simp
  · obtain ⟨hne, _, _⟩ := natDigitsF_spec (n.toNat + 1) n.toNat (by omega)
    exact hne

/-- The first character of a serialized value is never whitespace and never
a closing bracket. -/
theorem dumps_head_spec (v : Json) : ∃ c t, dumps v = c :: t ∧
    ¬(c = ' ' ∨ c = '\t' ∨ c = '\n' ∨ c = '\r') ∧ c ≠ ']' := by
  cases v with
  | null => exact ⟨'n', _, rfl, by decide, by decide⟩
  | bool b =>
    cases b with
    | true => exact ⟨'t', _, rfl, by decide, by decide⟩
    | false => exact ⟨'f', _, rfl, by decide, by decide⟩
  | num n =>
    by_cases hneg : n < 0
    · refine ⟨'-', natDigits n.natAbs, ?_, by decide, by decide⟩
      simp [dumps, intDigits, hneg]
    · obtain ⟨hne, hdig, _⟩ := natDigitsF_spec (n.toNat + 1) n.toNat (by omega)
      cases heq : natDigits n.toNat with
      | nil => exact absurd heq hne
      | cons c t =>
        have hc : c.isDigit = true := hdig c (by
          rw [show natDigitsF (n.toNat + 1) n.toNat = c :: t from heq]; simp)
        have hrange := (isDigit_iff c).mp hc
        refine ⟨c, t, ?_, ?_, ?_⟩
        · simp only [dumps, intDigits, hneg, if_false]
          exact heq
        · rintro (rfl | rfl | rfl | rfl) <;> exact absurd hc (by decide)
        · exact char_ne_of_toNat_ne (by
            have : (']' : Char).toNat = 93 := rfl
            omega)
  | str s => exact ⟨'"', _, rfl, by decide, by decide⟩
  | arr xs => exact ⟨'[', _, rfl, by decide, by decide⟩
  | obj ms => exact ⟨'\x7b', _, rfl, by decide, by decide⟩

/-- Serialized values are nonempty. -/
theorem dumps_ne_nil (v : Json) : dumps v ≠ [] := by
  obtain ⟨c, t, heq, _, _⟩ := dumps_head_spec v
  simp [heq]

/-- Leading whitespace skipping does not touch a serialized value. -/
theorem skipWs_dumps (v : Json) (r : List Char) :
    skipWs (dumps v ++ r) = dumps v ++ r := by
  obtain ⟨c, t, heq, hws, _⟩ := dumps_head_spec v
  rw [heq, List.cons_append, skipWs_cons _ hws]

/-- Every escape is at least one character long. -/
theorem escapeChar_length_pos (c : Char) : 1 ≤ (escapeChar c).length := by
  unfold escapeChar
  split_ifs <;> simp [hex4]

/-- Escaping cannot shorten a string. -/
theorem escapeString_length_ge : ∀ s : List Char, s.length ≤ (escapeString s).length
  | [] => by simp [escapeString]
  | c :: cs => by
    have h1 := escapeChar_length_pos c
    have h2 := escapeString_length_ge cs
    simp only [escapeString, List.length_append, List.length_cons]
    omega

mutual
/-- The parser fuel measure is dominated by twice the serialized length. -/
theorem jsize_le_dumps : ∀ v : Json, jsize v ≤ 2 * (dumps v).length
  | .null => by simp [jsize, dumps]
  | .bool b => by cases b <;> simp [jsize, dumps]
  | .num n => by
    have h := intDigits_ne_nil n
    have : 1 ≤ (intDigits n).length := by
      cases hi : intDigits n with
      | nil => exact absurd hi h
      | cons c t => simp
    simp only [jsize, dumps]
    omega
  | .str s => by
    have h := escapeString_length_ge s
    simp only [jsize, dumps, dumpsStr, List.length_cons, List.length_append,
      List.length_singleton]
    omega
  | .arr xs => by
    have h := jsizeL_le_dumpsList xs
    simp only [jsize, dumps, List.length_cons, List.length_append, List.length_singleton]
    omega
  | .obj ms => by
    have h := jsizeM_le_dumpsMembers ms
    simp only [jsize, dumps, List.length_cons, List.length_append, List.length_singleton]
    omega
/-- List version of the fuel bound. -/
theorem jsizeL_le_dumpsList : ∀ xs : JsonList, jsizeL xs ≤ 2 * (dumpsList xs).length + 2
  | .nil => by simp [jsizeL, dumpsList]
  | .cons x .nil => by
    have h := jsize_le_dumps x
    simp only [jsizeL, dumpsList]
    omega
  | .cons x (.cons y tl) => by
    have h1 := jsize_le_dumps x
    have h2 := jsizeL_le_dumpsList (.cons y tl)
    simp only [jsizeL, dumpsList, List.length_append, List.length_cons] at h2 ⊢
    omega
/-- Object version of the fuel bound. -/
theorem jsizeM_le_dumpsMembers : ∀ ms : JsonObj, jsizeM ms ≤ 2 * (dumpsMembers ms).length + 2
  | .nil => by simp [jsizeM, dumpsMembers]
  | .cons k v .nil => by
    have h1 := jsize_le_dumps v
    have h2 := escapeString_length_ge k
    simp only [jsizeM, dumpsMembers, dumpsStr, List.length_append, List.length_cons,
      List.length_singleton]
    omega
  | .cons k v (.cons k2 v2 tl) => by
    have h1 := jsize_le_dumps v
    have h2 := escapeString_length_ge k
    have h3 := jsizeM_le_dumpsMembers (.cons k2 v2 tl)
    simp only [jsizeM, dumpsMembers, dumpsStr, List.length_append, List.length_cons,
      List.length_singleton] at h3 ⊢
    omega
end

/-! ## One-step unfolding lemmas for the value parser -/

/-- A value beginning with a quote parses as a string. -/
theorem pv_str (f : Nat) (rest : List Char) :
    parseValue (f + 1) ('"' :: rest) =
      (parseStringBody f rest).map (fun p => (Json.str p.1, p.2)) := by
  simp [parseValue]

/-- The literal `true`. -/
theorem pv_true (f : Nat) (rest : List Char) :
    parseValue (f + 1) ('t' :: 'r' :: 'u' :: 'e' :: rest) = some (Json.bool true, rest) := by
  simp [parseValue]

/-- The literal `false`. -/
theorem pv_false (f : Nat) (rest : List Char) :
    parseValue (f + 1) ('f' :: 'a' :: 'l' :: 's' :: 'e' :: rest) =
      some (Json.bool false, rest) := by
  simp [parseValue]

/-- The literal `null`. -/
theorem pv_null (f : Nat) (rest : List Char) :
    parseValue (f + 1) ('n' :: 'u' :: 'l' :: 'l' :: rest) = some (Json.null, rest) := by
  simp [parseValue]

/-- A value beginning with a minus sign or digit parses as a number. -/
theorem pv_num (f : Nat) (c : Char) (rest : List Char)
    (h1 : ¬c = '"') (h2 : ¬c = '\x7b') (h3 : ¬c = '[') (h4 : ¬c = 't') (h5 : ¬c = 'f')
    (h6 : ¬c = 'n') (h7 : c = '-' ∨ c.isDigit = true) :
    parseValue (f + 1) (c :: rest) =
      (parseNumber (c :: rest)).map (fun p => (Json.num p.1, p.2)) := by
  simp [parseValue, h1, h2, h3, h4, h5, h6, h7]

/-- An empty array literal. -/
theorem pv_arr_nil (f : Nat) (rest r2 : List Char) (hsk : skipWs rest = ']' :: r2) :
    parseValue (f + 1) ('[' :: rest) = some (Json.arr .nil, r2) := by
  simp [parseValue, hsk]

/-- A nonempty array defers to the element parser. -/
theorem pv_arr (f : Nat) (rest : List Char) (c2 : Char) (r2 : List Char)
    (hsk : skipWs rest = c2 :: r2) (hne : ¬c2 = ']') :
    parseValue (f + 1) ('[' :: rest) =
      (parseItemsRest f (c2 :: r2)).map (fun p => (Json.arr p.1, p.2)) := by
  simp [parseValue, hsk, hne]

/-- An empty object literal. -/
theorem pv_obj_nil (f : Nat) (rest r2 : List Char) (hsk : skipWs rest = '\x7d' :: r2) :
    parseValue (f + 1) ('\x7b' :: rest) = some (Json.obj .nil, r2) := by
  simp [parseValue, hsk]

/-- A nonempty object defers to the member parser. -/
theorem pv_obj (f : Nat) (rest : List Char) (c2 : Char) (r2 : List Char)
    (hsk : skipWs rest = c2 :: r2) (hne : ¬c2 = '\x7d') :
    parseValue (f + 1) ('\x7b' :: rest) =
      (parseMembersRest f (c2 :: r2)).map (fun p => (Json.obj p.1, p.2)) := by
  simp [parseValue, hsk, hne]

/-! ## Small token helpers -/

/-- `skipWs` absorbs a single leading space. -/
theorem skipWs_space (x : List Char) : skipWs (' ' :: x) = skipWs x := by
  simp [skipWs]

/-- `]` is not whitespace. -/
theorem skipWs_rbracket (r : List Char) : skipWs (']' :: r) = ']' :: r :=
  skipWs_cons _ (by decide)

/-- `,` is not whitespace. -/
theorem skipWs_comma (r : List Char) : skipWs (',' :: r) = ',' :: r :=
  skipWs_cons _ (by decide)

/-- The closing brace is not whitespace. -/
theorem skipWs_rbrace (r : List Char) : skipWs ('\x7d' :: r) = '\x7d' :: r :=
  skipWs_cons _ (by decide)

/-- `:` is not whitespace. -/
theorem skipWs_colon (r : List Char) : skipWs (':' :: r) = ':' :: r :=
  skipWs_cons _ (by decide)

/-- `]` ends a number literal. -/
theorem numBoundary_rbracket (r : List Char) : numBoundary (']' :: r) = true := rfl

/-- `,` ends a number literal. -/
theorem numBoundary_comma (r : List Char) : numBoundary (',' :: r) = true := rfl

/-- The closing brace ends a number literal. -/
theorem numBoundary_rbrace (r : List Char) : numBoundary ('\x7d' :: r) = true := rfl

/-- End of input ends a number literal. -/
theorem numBoundary_nil : numBoundary [] = true := rfl

/-! ## Round-trip case lemmas -/

/-- A digit character differs from any character outside the digit range. -/
theorem digit_ne_lit {c : Char} (h : 48 ≤ c.toNat ∧ c.toNat ≤ 57) {d : Char}
    (hd : d.toNat < 48 ∨ 57 < d.toNat) : c ≠ d :=
  char_ne_of_toNat_ne (by omega)

/-- A nonempty serialized array body starts with its first element. -/
theorem dumpsList_cons_eq (x : Json) (tl : JsonList) :
    ∃ u, dumpsList (JsonList.cons x tl) = dumps x ++ u := by
  cases tl with
  | nil => exact ⟨[], by simp [dumpsList]⟩
  | cons y tl2 => exact ⟨',' :: ' ' :: dumpsList (JsonList.cons y tl2), rfl⟩

/-- A nonempty serialized object body starts with the quoted first key. -/
theorem dumpsMembers_cons_head (k : List Char) (v : Json) (tl : JsonObj) :
    ∃ w, dumpsMembers (JsonObj.cons k v tl) = '"' :: w := by
  cases tl with
  | nil =>
    exact ⟨escapeString k ++ ['"'] ++ (':' :: ' ' :: dumps v), by simp [dumpsMembers, dumpsStr]⟩
  | cons k2 v2 tl2 =>
    exact ⟨escapeString k ++ ['"'] ++ (':' :: ' ' :: (dumps v ++ ',' :: ' ' ::
      dumpsMembers (JsonObj.cons k2 v2 tl2))), by simp [dumpsMembers, dumpsStr]⟩

/-- Round trip, `null`. -/
theorem rt_null (f : Nat) (rest : List Char) :
    parseValue (f + 1) (dumps Json.null ++ rest) = some (Json.null, rest) := by
  rw [show dumps Json.null = ['n', 'u', 'l', 'l'] from rfl]
  simp only [List.cons_append, List.nil_append]
  exact pv_null f rest

/-- Round trip, booleans. -/
theorem rt_bool (b : Bool) (f : Nat) (rest : List Char) :
    parseValue (f + 1) (dumps (Json.bool b) ++ rest) = some (Json.bool b, rest) := by
  cases b with
  | false =>
    rw [show dumps (Json.bool false) = ['f', 'a', 'l', 's', 'e'] from rfl]
    simp only [List.cons_append, List.nil_append]
    exact pv_false f rest
  | true =>
    rw [show dumps (Json.bool true) = ['t', 'r', 'u', 'e'] from rfl]
    simp only [List.cons_append, List.nil_append]
    exact pv_true f rest

/-- Round trip, numbers. -/
theorem rt_num (n : Int) (f : Nat) (rest : List Char) (hb : numBoundary rest = true) :
    parseValue (f + 1) (dumps (Json.num n) ++ rest) = some (Json.num n, rest) := by
  have hd : dumps (Json.num n) = intDigits n := rfl
  rw [hd]
  by_cases hneg : n < 0
  · have hi : intDigits n = '-' :: natDigits n.natAbs := by simp [intDigits, hneg]
    rw [hi, List.cons_append]
    rw [pv_num f '-' _ (by decide) (by decide) (by decide) (by decide) (by decide)
      (by decide) (Or.inl rfl)]
    rw [← List.cons_append, ← hi, parseNumber_intDigits n rest hb]
    rfl
  · obtain ⟨hne, hdig, _⟩ := natDigitsF_spec (n.toNat + 1) n.toNat (by omega)
    have hi : intDigits n = natDigits n.toNat := by simp [intDigits, hneg]
    cases heq : natDigits n.toNat with
    | nil => exact absurd heq hne
    | cons c t =>
      have hc : c.isDigit = true := hdig c (by
        rw [show natDigitsF (n.toNat + 1) n.toNat = c :: t from heq]; simp)
      have hrange := (isDigit_iff c).mp hc
      rw [hi, heq, List.cons_append]
      rw [pv_num f c _ (digit_ne_lit hrange (by decide)) (digit_ne_lit hrange (by decide))
        (digit_ne_lit hrange (by decide)) (digit_ne_lit hrange (by decide))
        (digit_ne_lit hrange (by decide)) (digit_ne_lit hrange (by decide)) (Or.inr hc)]
      rw [← List.cons_append, ← heq, ← hi, parseNumber_intDigits n rest hb]
      rfl

/-- Round trip, strings. -/
theorem rt_str (s : List Char) (f : Nat) (rest : List Char) (hf : s.length < f) :
    parseValue (f + 1) (dumps (Json.str s) ++ rest) = some (Json.str s, rest) := by
  have hd : dumps (Json.str s) = '"' :: (escapeString s ++ ['"']) := rfl
  rw [hd, List.cons_append, List.append_assoc]
  simp only [List.cons_append, List.nil_append]
  rw [pv_str f _, parseStringBody_escape s f rest hf]
  rfl

/-- Round trip, empty arrays. -/
theorem rt_arr_nil (f : Nat) (rest : List Char) :
    parseValue (f + 1) (dumps (Json.arr .nil) ++ rest) = some (Json.arr .nil, rest) := by
  rw [show dumps (Json.arr .nil) = ['[', ']'] from rfl]
  simp only [List.cons_append, List.nil_append]
  exact pv_arr_nil f (']' :: rest) rest (skipWs_rbracket rest)

/-- Round trip, nonempty arrays, given the element-list result. -/
theorem rt_arr_cons (x : Json) (tl : JsonList) (f : Nat) (rest : List Char)
    (hitems : parseItemsRest f (dumpsList (JsonList.cons x tl) ++ ']' :: rest) =
      some (JsonList.cons x tl, rest)) :
    parseValue (f + 1) (dumps (Json.arr (JsonList.cons x tl)) ++ rest) =
      some (Json.arr (JsonList.cons x tl), rest) := by
  rw [show dumps (Json.arr (JsonList.cons x tl)) =
      '[' :: (dumpsList (JsonList.cons x tl) ++ [']']) from rfl]
  rw [List.cons_append, List.append_assoc]
  simp only [List.cons_append, List.nil_append]
  obtain ⟨c, t, hxeq, hws, hnb⟩ := dumps_head_spec x
  obtain ⟨u, hu⟩ := dumpsList_cons_eq x tl
  have hshape : dumpsList (JsonList.cons x tl) ++ ']' :: rest =
      c :: (t ++ (u ++ ']' :: rest)) := by
    rw [hu, hxeq]
    simp
  have hsk : skipWs (dumpsList (JsonList.cons x tl) ++ ']' :: rest) =
      c :: (t ++ (u ++ ']' :: rest)) := by
    rw [hshape]
    exact skipWs_cons _ hws
  rw [pv_arr f _ c _ hsk hnb, ← hshape, hitems]
  rfl

/-- Round trip, empty objects. -/
theorem rt_obj_nil (f : Nat) (rest : List Char) :
    parseValue (f + 1) (dumps (Json.obj .nil) ++ rest) = some (Json.obj .nil, rest) := by
  rw [show dumps (Json.obj .nil) = ['\x7b', '\x7d'] from rfl]
  simp only [List.cons_append, List.nil_append]
  exact pv_obj_nil f ('\x7d' :: rest) rest (skipWs_rbrace rest)

/-- Round trip, nonempty objects, given the member-list result. -/
theorem rt_obj_cons (k : List Char) (v : Json) (tl : JsonObj) (f : Nat) (rest : List Char)
    (hmembers : parseMembersRest f (dumpsMembers (JsonObj.cons k v tl) ++ '\x7d' :: rest) =
      some (JsonObj.cons k v tl, rest)) :
    parseValue (f + 1) (dumps (Json.obj (JsonObj.cons k v tl)) ++ rest) =
      some (Json.obj (JsonObj.cons k v tl), rest) := by
  rw [show dumps (Json.obj (JsonObj.cons k v tl)) =
      '\x7b' :: (dumpsMembers (JsonObj.cons k v tl) ++ ['\x7d']) from rfl]
  rw [List.cons_append, List.append_assoc]
  simp only [List.cons_append, List.nil_append]
  obtain ⟨w, hw⟩ := dumpsMembers_cons_head k v tl
  have hshape : dumpsMembers (JsonObj.cons k v tl) ++ '\x7d' :: rest =
      '"' :: (w ++ '\x7d' :: rest) := by
    rw [hw]
    simp
  have hsk : skipWs (dumpsMembers (JsonObj.cons k v tl) ++ '\x7d' :: rest) =
      '"' :: (w ++ '\x7d' :: rest) := by
    rw [hshape]
    exact skipWs_cons _ (by decide)
  rw [pv_obj f _ '"' _ hsk (by decide), ← hshape, hmembers]
  rfl

/-- Element-list round trip, single element, given the value result. -/
theorem ir_single (x : Json) (f : Nat) (rest : List Char)
    (hval : parseValue f (dumps x ++ ']' :: rest) = some (x, ']' :: rest)) :
    parseItemsRest (f + 1) (dumpsList (JsonList.cons x .nil) ++ ']' :: rest) =
      some (JsonList.cons x .nil, rest) := by
  rw [show dumpsList (JsonList.cons x .nil) = dumps x from rfl]
  simp only [parseItemsRest]
  rw [hval]
  simp [skipWs_rbracket]

/-- Element-list round trip, two or more elements. -/
theorem ir_cons (x y : Json) (tl : JsonList) (f : Nat) (rest : List Char)
    (hval : parseValue f (dumps x ++ ',' :: ' ' ::
        (dumpsList (JsonList.cons y tl) ++ ']' :: rest)) =
      some (x, ',' :: ' ' :: (dumpsList (JsonList.cons y tl) ++ ']' :: rest)))
    (hrest : parseItemsRest f (dumpsList (JsonList.cons y tl) ++ ']' :: rest) =
      some (JsonList.cons y tl, rest)) :
    parseItemsRest (f + 1) (dumpsList (JsonList.cons x (JsonList.cons y tl)) ++ ']' :: rest) =
      some (JsonList.cons x (JsonList.cons y tl), rest) := by
  rw [show dumpsList (JsonList.cons x (JsonList.cons y tl)) =
      dumps x ++ ',' :: ' ' :: dumpsList (JsonList.cons y tl) from rfl]
  simp only [List.append_assoc, List.cons_append]
  simp only [parseItemsRest]
  rw [hval]
  simp only [skipWs_comma]
  rw [skipWs_space]
  obtain ⟨c, t, hyeq, hws, _⟩ := dumps_head_spec y
  obtain ⟨u, hu⟩ := dumpsList_cons_eq y tl
  have hsk : skipWs (dumpsList (JsonList.cons y tl) ++ ']' :: rest) =
      dumpsList (JsonList.cons y tl) ++ ']' :: rest := by
    rw [hu, hyeq]
    simp only [List.cons_append, List.append_assoc]
    exact skipWs_cons _ hws
  rw [hsk, hrest]
  rfl

/-- Member-list round trip, single member, given the value result. -/
theorem mr_single (k : List Char) (v : Json) (f : Nat) (rest : List Char)
    (hk : k.length < f)
    (hval : parseValue f (dumps v ++ '\x7d' :: rest) = some (v, '\x7d' :: rest)) :
    parseMembersRest (f + 1) (dumpsMembers (JsonObj.cons k v .nil) ++ '\x7d' :: rest) =
      some (JsonObj.cons k v .nil, rest) := by
  have hshape : dumpsMembers (JsonObj.cons k v .nil) ++ '\x7d' :: rest =
      '"' :: (escapeString k ++ '"' :: (':' :: ' ' :: (dumps v ++ '\x7d' :: rest))) := by
    simp [dumpsMembers, dumpsStr]
  rw [hshape]
  simp only [parseMembersRest]
  rw [parseStringBody_escape k f _ hk]
  simp only [skipWs_colon]
  rw [skipWs_space, skipWs_dumps v ('\x7d' :: rest), hval]
  simp [skipWs_rbrace]

/-- Member-list round trip, two or more members. -/
theorem mr_cons (k : List Char) (v : Json) (k2 : List Char) (v2 : Json) (tl : JsonObj)
    (f : Nat) (rest : List Char) (hk : k.length < f)
    (hval : parseValue f (dumps v ++ ',' :: ' ' ::
        (dumpsMembers (JsonObj.cons k2 v2 tl) ++ '\x7d' :: rest)) =
      some (v, ',' :: ' ' :: (dumpsMembers (JsonObj.cons k2 v2 tl) ++ '\x7d' :: rest)))
    (hrest : parseMembersRest f (dumpsMembers (JsonObj.cons k2 v2 tl) ++ '\x7d' :: rest) =
      some (JsonObj.cons k2 v2 tl, rest)) :
    parseMembersRest (f + 1)
        (dumpsMembers (JsonObj.cons k v (JsonObj.cons k2 v2 tl)) ++ '\x7d' :: rest) =
      some (JsonObj.cons k v (JsonObj.cons k2 v2 tl), rest) := by
  have hshape : dumpsMembers (JsonObj.cons k v (JsonObj.cons k2 v2 tl)) ++ '\x7d' :: rest =
      '"' :: (escapeString k ++ '"' :: (':' :: ' ' :: (dumps v ++ ',' :: ' ' ::
        (dumpsMembers (JsonObj.cons k2 v2 tl) ++ '\x7d' :: rest)))) := by
    simp [dumpsMembers, dumpsStr]
  rw [hshape]
  simp only [parseMembersRest]
  rw [parseStringBody_escape k f _ hk]
  simp only [skipWs_colon]
  rw [skipWs_space, skipWs_dumps v _, hval]
  simp only [skipWs_comma]
  rw [skipWs_space]
  obtain ⟨w, hw⟩ := dumpsMembers_cons_head k2 v2 tl
  have hsk : skipWs (dumpsMembers (JsonObj.cons k2 v2 tl) ++ '\x7d' :: rest) =
      dumpsMembers (JsonObj.cons k2 v2 tl) ++ '\x7d' :: rest := by
    rw [hw]
    simp only [List.cons_append]
    exact skipWs_cons _ (by decide)
  rw [hsk, hrest]
  rfl

mutual
/-- Round trip of the codec core: parsing a serialized JSON value followed by
a number boundary recovers the value and leaves the boundary unconsumed. -/
theorem parseValue_dumps : ∀ (v : Json) (fuel : Nat) (rest : List Char),
    jsize v < fuel → numBoundary rest = true →
    parseValue fuel (dumps v ++ rest) = some (v, rest)
  | .null, fuel, rest, hf, _ => by
    cases fuel with
    | zero => exact absurd hf (by simp [jsize])
    | succ f => exact rt_null f rest
  | .bool b, fuel, rest, hf, _ => by
    cases fuel with
    | zero => exact absurd hf (by simp [jsize])
    | succ f => exact rt_bool b f rest
  | .num n, fuel, rest, hf, hb => by
    cases fuel with
    | zero => exact absurd hf (by simp [jsize])
    | succ f => exact rt_num n f rest hb
  | .str s, fuel, rest, hf, _ => by
    cases fuel with
    | zero => exact absurd hf (by simp [jsize])
    | succ f => exact rt_str s f rest (by simp [jsize] at hf; omega)
  | .arr .nil, fuel, rest, hf, _ => by
    cases fuel with
    | zero => exact absurd hf (by simp [jsize])
    | succ f => exact rt_arr_nil f rest
  | .arr (.cons x tl), fuel, rest, hf, _ => by
    cases fuel with
    | zero => exact absurd hf (by simp [jsize])
    | succ f =>
      exact rt_arr_cons x tl f rest
        (parseItemsRest_dumps (.cons x tl) f rest (by simp)
          (by simp only [jsize] at hf; omega))
  | .obj .nil, fuel, rest, hf, _ => by
    cases fuel with
    | zero => exact absurd hf (by simp [jsize])
    | succ f => exact rt_obj_nil f rest
  | .obj (.cons k v tl), fuel, rest, hf, _ => by
    cases fuel with
    | zero => exact absurd hf (by simp [jsize])
    | succ f =>
      exact rt_obj_cons k v tl f rest
        (parseMembersRest_dumps (.cons k v tl) f rest (by simp)
          (by simp only [jsize] at hf; omega))
/-- Round trip of serialized array element lists. -/
theorem parseItemsRest_dumps : ∀ (xs : JsonList) (fuel : Nat) (rest : List Char),
    xs ≠ .nil → jsizeL xs < fuel →
    parseItemsRest fuel (dumpsList xs ++ ']' :: rest) = some (xs, rest)
  | .nil, _, _, hne, _ => absurd rfl hne
  | .cons x .nil, fuel, rest, _, hf => by
    cases fuel with
    | zero => exact absurd hf (by omega)
    | succ f =>
      exact ir_single x f rest
        (parseValue_dumps x f (']' :: rest)
          (by simp only [jsizeL] at hf; omega) (numBoundary_rbracket rest))
  | .cons x (.cons y tl), fuel, rest, _, hf => by
    cases fuel with
    | zero => exact absurd hf (by omega)
    | succ f =>
      exact ir_cons x y tl f rest
        (parseValue_dumps x f _
          (by simp only [jsizeL] at hf; omega) (numBoundary_comma _))
        (parseItemsRest_dumps (.cons y tl) f rest (by simp)
          (by simp only [jsizeL] at hf ⊢; omega))
/-- Round trip of serialized object member lists. -/
theorem parseMembersRest_dumps : ∀ (ms : JsonObj) (fuel : Nat) (rest : List Char),
    ms ≠ .nil → jsizeM ms < fuel →
    parseMembersRest fuel (dumpsMembers ms ++ '\x7d' :: rest) = some (ms, rest)
  | .nil, _, _, hne, _ => absurd rfl hne
  | .cons k v .nil, fuel, rest, _, hf => by
    cases fuel with
    | zero => exact absurd hf (by omega)
    | succ f =>
      exact mr_single k v f rest (by simp only [jsizeM] at hf; omega)
        (parseValue_dumps v f ('\x7d' :: rest)
          (by simp only [jsizeM] at hf; omega) (numBoundary_rbrace rest))
  | .cons k v (.cons k2 v2 tl), fuel, rest, _, hf => by
    cases fuel with
    | zero => exact absurd hf (by omega)
    | succ f =>
      exact mr_cons k v k2 v2 tl f rest (by simp only [jsizeM] at hf; omega)
        (parseValue_dumps v f _
          (by simp only [jsizeM] at hf; omega) (numBoundary_comma _))
        (parseMembersRest_dumps (.cons k2 v2 tl) f rest (by simp)
          (by simp only [jsizeM] at hf ⊢; omega))
end

/-! ## `loads` inverts `dumps` -/

/-- `json.loads` recovers any value serialized by `json.dumps`. -/
theorem loads_dumps (v : Json) : loads (dumps v) = some v := by
  unfold loads
  have h1 : skipWs (dumps v) = dumps v := by
    have h := skipWs_dumps v []
    simpa using h
  rw [h1]
  have hj := jsize_le_dumps v
  have h2 : parseValue (2 * (dumps v).length + 2) (dumps v ++ []) = some (v, []) :=
    parseValue_dumps v _ [] (by omega) numBoundary_nil
  rw [List.append_nil] at h2
  rw [h2]
  simp [skipWs]

/-! ## `json.dumps` emits only ASCII (`ensure_ascii=True`) -/

/-- Hex digit characters are ASCII. -/
theorem hexDigitChar_ascii (d : Nat) (h : d < 16) : (hexDigitChar d).toNat < 128 := by
  unfold hexDigitChar
  split_ifs with h10
  · rw [toNat_ofNat_lt _ (by omega)]
    omega
  · rw [toNat_ofNat_lt _ (by omega)]
    omega

/-- Four-digit hex escapes are ASCII. -/
theorem hex4_ascii (n : Nat) : ∀ x ∈ hex4 n, x.toNat < 128 := by
  intro x hx
  simp [hex4] at hx
  rcases hx with rfl | rfl | rfl | rfl <;>
    exact hexDigitChar_ascii _ (Nat.mod_lt _ (by omega))

/-- Every character of an escape is ASCII. -/
theorem escapeChar_ascii (c : Char) : ∀ x ∈ escapeChar c, x.toNat < 128 := by
  intro x hx
  unfold escapeChar at hx
  split_ifs at hx with h1 h2 h3 h4 h5 h6 h7 h8 h9
  · simp at hx
    rcases hx with rfl | rfl <;> decide
  · simp at hx
    rcases hx with rfl | rfl <;> decide
  · simp at hx
    rcases hx with rfl | rfl <;> decide
  · simp at hx
    rcases hx with rfl | rfl <;> decide
  · simp at hx
    rcases hx with rfl | rfl <;> decide
  · simp at hx
    rcases hx with rfl | rfl <;> decide
  · simp at hx
    rcases hx with rfl | rfl <;> decide
  · simp at hx
    subst hx
    omega
  · simp at hx
    rcases hx with rfl | rfl | hmem
    · decide
    · decide
    · exact hex4_ascii _ x hmem
  · simp at hx
    rcases hx with rfl | rfl | hmem | rfl | rfl | hmem
    · decide
    · decide
    · exact hex4_ascii _ x hmem
    · decide
    · decide
    · exact hex4_ascii _ x hmem

/-- Escaped strings are ASCII. -/
theorem escapeString_ascii : ∀ (s : List Char), ∀ x ∈ escapeString s, x.toNat < 128
  | [] => by simp [escapeString]
  | c :: cs => by
    intro x hx
    simp only [escapeString, List.mem_append] at hx
    rcases hx with h | h
    · exact escapeChar_ascii c x h
    · exact escapeString_ascii cs x h

/-- Serialized integers are ASCII. -/
theorem intDigits_ascii (n : Int) : ∀ x ∈ intDigits n, x.toNat < 128 := by
  intro x hx
  unfold intDigits at hx
  split_ifs at hx with h
  · simp at hx
    rcases hx with rfl | hm
    · decide
    · obtain ⟨_, hdig, _⟩ := natDigitsF_spec (n.natAbs + 1) n.natAbs (by omega)
      have := (isDigit_iff x).mp (hdig x hm)
      omega
  · obtain ⟨_, hdig, _⟩ := natDigitsF_spec (n.toNat + 1) n.toNat (by omega)
    have := (isDigit_iff x).mp (hdig x hx)
    omega

/-- Serialized JSON strings are ASCII. -/
theorem dumpsStr_ascii (k : List Char) : ∀ x ∈ dumpsStr k, x.toNat < 128 := by
  intro x hx
  rcases List.mem_cons.mp hx with rfl | hx2
  · decide
  · rcases List.mem_append.mp hx2 with h | h
    · exact escapeString_ascii k x h
    · rw [List.mem_singleton] at h
      subst h
      decide

mutual
/-- `json.dumps` output is pure ASCII. -/
theorem dumps_ascii : ∀ (v : Json), ∀ x ∈ dumps v, x.toNat < 128
  | .null => by decide
  | .bool b => by cases b <;> decide
  | .num n => intDigits_ascii n
  | .str s => by
    rw [show dumps (Json.str s) = '"' :: (escapeString s ++ ['"']) from rfl,
      List.forall_mem_cons, List.forall_mem_append]
    exact ⟨by decide, escapeString_ascii s, by decide⟩
  | .arr xs => by
    rw [show dumps (Json.arr xs) = '[' :: (dumpsList xs ++ [']']) from rfl,
      List.forall_mem_cons, List.forall_mem_append]
    exact ⟨by decide, dumpsList_ascii xs, by decide⟩
  | .obj ms => by
    rw [show dumps (Json.obj ms) = '\x7b' :: (dumpsMembers ms ++ ['\x7d']) from rfl,
      List.forall_mem_cons, List.forall_mem_append]
    exact ⟨by decide, dumpsMembers_ascii ms, by decide⟩
/-- Serialized element lists are ASCII. -/
theorem dumpsList_ascii : ∀ (xs : JsonList), ∀ x ∈ dumpsList xs, x.toNat < 128
  | .nil => by simp [dumpsList]
  | .cons a .nil => by
    rw [show dumpsList (JsonList.cons a .nil) = dumps a from rfl]
    exact dumps_ascii a
  | .cons a (.cons y tl) => by
    rw [show dumpsList (JsonList.cons a (JsonList.cons y tl)) =
      dumps a ++ ',' :: ' ' :: dumpsList (JsonList.cons y tl) from rfl,
      List.forall_mem_append, List.forall_mem_cons, List.forall_mem_cons]
    exact ⟨dumps_ascii a, by decide, by decide, dumpsList_ascii (JsonList.cons y tl)⟩
/-- Serialized member lists are ASCII. -/
theorem dumpsMembers_ascii : ∀ (ms : JsonObj), ∀ x ∈ dumpsMembers ms, x.toNat < 128
  | .nil => by simp [dumpsMembers]
  | .cons k v .nil => by
    intro x hx
    rw [show dumpsMembers (JsonObj.cons k v .nil) =
      dumpsStr k ++ ':' :: ' ' :: dumps v from rfl] at hx
    rcases List.mem_append.mp hx with h | h
    · exact dumpsStr_ascii k x h
    · rcases List.mem_cons.mp h with rfl | h
      · decide
      · rcases List.mem_cons.mp h with rfl | h
        · decide
        · exact dumps_ascii v x h
  | .cons k v (.cons k2 v2 tl) => by
    intro x hx
    rw [show dumpsMembers (JsonObj.cons k v (JsonObj.cons k2 v2 tl)) =
      dumpsStr k ++ ':' :: ' ' :: dumps v ++ ',' :: ' ' ::
        dumpsMembers (JsonObj.cons k2 v2 tl) from rfl] at hx
    rcases List.mem_append.mp hx with h | h
    · rcases List.mem_append.mp h with h | h
      · exact dumpsStr_ascii k x h
      · rcases List.mem_cons.mp h with rfl | h
        · decide
        · rcases List.mem_cons.mp h with rfl | h
          · decide
          · exact dumps_ascii v x h
    · rcases List.mem_cons.mp h with rfl | h
      · decide
      · rcases List.mem_cons.mp h with rfl | h
        · decide
        · exact dumpsMembers_ascii (JsonObj.cons k2 v2 tl) x h
end

/-! ## UTF-8 round trip on ASCII payloads -/

/-- Decoding one ASCII byte. -/
theorem utf8Decode_ascii_cons (b : Nat) (rest : List Nat) (hb : b < 0x80) :
    utf8Decode (b :: rest) = (utf8Decode rest).map (fun cs => Char.ofNat b :: cs) := by
  conv_lhs => rw [utf8Decode]
  simp [hb]

/-- UTF-8 decoding inverts UTF-8 encoding on ASCII strings (the only payloads
`json.dumps` produces under `ensure_ascii=True`). -/
theorem utf8Decode_utf8Encode_ascii (cs : List Char) (h : ∀ c ∈ cs, c.toNat < 128) :
    utf8Decode (utf8Encode cs) = some cs := by
  induction cs with
  | nil => rfl
  | cons c cs ih =>
    have hc : c.toNat < 128 := h c (by simp)
    have hrest := ih (fun x hx => h x (by simp [hx]))
    have henc : utf8EncodeChar c = [c.toNat] := by simp [utf8EncodeChar, hc]
    rw [show utf8Encode (c :: cs) = utf8EncodeChar c ++ utf8Encode cs from rfl, henc]
    simp only [List.cons_append, List.nil_append]
    rw [utf8Decode_ascii_cons c.toNat _ hc, hrest]
    simp [Char.ofNat_toNat]

/-! ## The receive loop accumulates exactly the requested prefix -/

/-- One step of the receive loop: the loop guard fails. -/
theorem recvLoopF_succ_done (f need : Nat) (acc : List Nat) (s : List (List Nat))
    (h : ¬acc.length < need) : recvLoopF (f + 1) need acc s = acc := by
  cases s with
  | nil =>
    show (if acc.length < need then acc else acc) = acc
    exact if_neg h
  | cons c cs =>
    simp only [recvLoopF, h, if_false]

/-- One step of the receive loop: EOF before enough bytes arrived. -/
theorem recvLoopF_succ_nil (f need : Nat) (acc : List Nat) :
    recvLoopF (f + 1) need acc [] = acc := by
  show (if acc.length < need then acc else acc) = acc
  exact ite_self acc

/-- One step of the receive loop: a whole chunk is consumed. -/
theorem recvLoopF_succ_full (f need : Nat) (acc c : List Nat) (cs : List (List Nat))
    (h : acc.length < need) (hc : c ≠ []) (hcl : c.length ≤ min 4096 (need - acc.length)) :
    recvLoopF (f + 1) need acc (c :: cs) = recvLoopF f need (acc ++ c) cs := by
  simp [recvLoopF, h, hc, hcl]

/-- One step of the receive loop: `recv` returns only part of the first
chunk. -/
theorem recvLoopF_succ_part (f need : Nat) (acc c : List Nat) (cs : List (List Nat))
    (h : acc.length < need) (hc : c ≠ [])
    (hcl : ¬c.length ≤ min 4096 (need - acc.length)) :
    recvLoopF (f + 1) need acc (c :: cs) =
      recvLoopF f need (acc ++ c.take (min 4096 (need - acc.length)))
        (c.drop (min 4096 (need - acc.length)) :: cs) := by
  simp [recvLoopF, h, hc, hcl]

/-- Splitting a `take` across a chunk boundary. -/
theorem take_chunk_split (c f : List Nat) (m n : Nat) (hnm : n ≤ m) (hnc : n ≤ c.length) :
    c.take n ++ (c.drop n ++ f).take (m - n) = (c ++ f).take m := by
  rw [List.take_append_eq_append_take, List.take_append_eq_append_take,
    ← List.append_assoc]
  congr 1
  · rw [← List.take_add]
    congr 1
    omega
  · congr 1
    rw [List.length_drop]
    omega

/-- With enough fuel and no spurious empty chunks, the receive loop of
src/client.py lines 65-70 accumulates exactly the first `need` bytes the
stream still holds (or everything, if the stream closes early). -/
theorem recvLoopF_take : ∀ (fuel need : Nat) (acc : List Nat) (s : List (List Nat)),
    (∀ c ∈ s, c ≠ []) → need ≤ fuel + acc.length →
    recvLoopF fuel need acc s = acc ++ s.flatten.take (need - acc.length)
  | 0, need, acc, s, _, hle => by
    have h0 : need - acc.length = 0 := by omega
    rw [h0]
    simp [recvLoopF]
  | fuel + 1, need, acc, s, hs, hle => by
    by_cases hlt : acc.length < need
    · cases s with
      | nil =>
        rw [recvLoopF_succ_nil]
        simp
      | cons c cs =>
        have hc : c ≠ [] := hs c (by simp)
        have hclen : 1 ≤ c.length := by
          cases c with
          | nil => exact absurd rfl hc
          | cons b bs => simp
        by_cases hcl : c.length ≤ min 4096 (need - acc.length)
        · have hc2 : c.length ≤ need - acc.length := by omega
          rw [recvLoopF_succ_full fuel need acc c cs hlt hc hcl,
            recvLoopF_take fuel need (acc ++ c) cs
              (fun x hx => hs x (by simp [hx])) (by simp; omega)]
          have hr : (c ++ cs.flatten).take (need - acc.length) =
              c ++ cs.flatten.take (need - (acc ++ c).length) := by
            rw [List.take_append_eq_append_take, List.take_of_length_le hc2]
            congr 2
            simp
            omega
          rw [List.flatten_cons, hr, ← List.append_assoc]
        · have hn1 : 1 ≤ min 4096 (need - acc.length) := by omega
          have htlen : (c.take (min 4096 (need - acc.length))).length =
              min 4096 (need - acc.length) := by
            rw [List.length_take]
            omega
          have hdne : c.drop (min 4096 (need - acc.length)) ≠ [] := by
            intro hd
            have hlen := congrArg List.length hd
            simp at hlen
            omega
          rw [recvLoopF_succ_part fuel need acc c cs hlt hc hcl,
            recvLoopF_take fuel need _ _
              (by
                intro x hx
                rcases List.mem_cons.mp hx with rfl | hx2
                · exact hdne
                · exact hs x (by simp [hx2]))
              (by rw [List.length_append, htlen]; omega)]
          rw [List.flatten_cons, List.append_assoc, List.length_append, htlen]
          congr 1
          have harith : need - (acc.length + min 4096 (need - acc.length)) =
              (need - acc.length) - min 4096 (need - acc.length) := by omega
          rw [harith]
          exact take_chunk_split c cs.flatten (need - acc.length)
            (min 4096 (need - acc.length)) (by omega) (by omega)
    · rw [recvLoopF_succ_done fuel need acc s hlt,
        show need - acc.length = 0 from by omega]
      simp

/-- The receive loop reads the first `need` stream bytes. -/
theorem recvLoop_take (need : Nat) (s : List (List Nat)) (hs : ∀ c ∈ s, c ≠ []) :
    recvLoop need s = s.flatten.take need := by
  unfold recvLoop
  rw [recvLoopF_take (need + 1) need [] s hs (by simp)]
  simp

/-- The receive loop over a single chunk (possibly empty) takes a prefix. -/
theorem recvLoop_single (need : Nat) (x : List Nat) : recvLoop need [x] = x.take need := by
  by_cases hx : x = []
  · subst hx
    cases need with
    | zero => rfl
    | succ m => simp [recvLoop, recvLoopF]
  · have h := recvLoop_take need [x] (by simpa using hx)
    simpa using h

/-! ## Length prefix arithmetic -/

/-- `int.from_bytes` inverts `to_bytes(4, "big")` below 2^32. -/
theorem fromBytesBE_toBytes4 (n : Nat) (h : n < 2 ^ 32) : fromBytesBE (toBytes4 n) = n := by
  simp [fromBytesBE, toBytes4]
  omega

/-! ## Response decoding facts -/

/-- The body of `readMessage`, written out. -/
theorem readMessage_def (s : List (List Nat)) : readMessage s =
    match utf8Decode (recvLoop (fromBytesBE (recv1 4 s).1) (recv1 4 s).2) with
    | none => Except.error DecodeError.unicodeError
    | some cs =>
      match loads cs with
      | none => Except.error DecodeError.jsonError
      | some j => Except.ok j := rfl

/-- A first `recv(4)` against a stream whose first chunk holds at least the
whole prefix returns exactly the four prefix bytes, leaving the remaining
stream bytes pending. -/
theorem recv1_spec (c0 : List Nat) (s : List (List Nat))
    (hne : ∀ c ∈ s, c ≠ []) (h4 : 4 ≤ c0.length) :
    (recv1 4 (c0 :: s)).1 = c0.take 4 ∧
    ((recv1 4 (c0 :: s)).2).flatten = (c0 :: s).flatten.drop 4 ∧
    (∀ c ∈ (recv1 4 (c0 :: s)).2, c ≠ []) := by
  by_cases he : c0.length ≤ 4
  · have h44 : c0.length = 4 := by omega
    simp only [recv1, he, if_true]
    refine ⟨(List.take_of_length_le he).symm, ?_, hne⟩
    rw [List.flatten_cons, List.drop_append_eq_append_drop,
      List.drop_of_length_le he, show (4 : Nat) - c0.length = 0 from by omega]
    simp
  · simp only [recv1, he, if_false]
    refine ⟨trivial, ?_, ?_⟩
    · rw [List.flatten_cons, List.flatten_cons, List.drop_append_eq_append_drop,
        show (4 : Nat) - c0.length = 0 from by omega]
      simp
    · intro x hx
      rcases List.mem_cons.mp hx with rfl | hx2
      · intro hd
        have hlen := congrArg List.length hd
        simp at hlen
        omega
      · exact hne x hx2

/-- `recv(4)` against a single chunk of at least four bytes. -/
theorem recv1_single_spec (F : List Nat) (h4 : 4 ≤ F.length) :
    (recv1 4 [F]).1 = F.take 4 ∧ ((recv1 4 [F]).2).flatten = F.drop 4 ∧
    (∀ c ∈ (recv1 4 [F]).2, c ≠ []) := by
  by_cases he : F.length ≤ 4
  · simp only [recv1, he, if_true]
    refine ⟨(List.take_of_length_le he).symm, ?_, by simp⟩
    rw [List.drop_of_length_le he]
    simp
  · simp only [recv1, he, if_false]
    refine ⟨trivial, by simp, ?_⟩
    intro x hx
    rcases List.mem_cons.mp hx with rfl | hx2
    · intro hd
      have hlen := congrArg List.length hd
      simp at hlen
      omega
    · simp at hx2

/-- `readMessage` in terms of the stream bytes selected by the decoded
length prefix. -/
theorem readMessage_take (s : List (List Nat)) (hch : ∀ c ∈ (recv1 4 s).2, c ≠ []) :
    readMessage s =
      match utf8Decode (((recv1 4 s).2).flatten.take (fromBytesBE (recv1 4 s).1)) with
      | none => Except.error DecodeError.unicodeError
      | some cs =>
        match loads cs with
        | none => Except.error DecodeError.jsonError
        | some j => Except.ok j := by
  rw [readMessage_def, recvLoop_take _ _ hch]

/-- Chunk boundaries after the first four bytes are invisible: a stream whose
first chunk holds at least the whole length prefix decodes exactly like the
same bytes delivered in one read. -/
theorem readMessage_flatten (c0 : List Nat) (s : List (List Nat))
    (hne : ∀ c ∈ s, c ≠ []) (h4 : 4 ≤ c0.length) :
    readMessage (c0 :: s) = readMessage [(c0 :: s).flatten] := by
  obtain ⟨hp1, hp2, hp3⟩ := recv1_spec c0 s hne h4
  have hF4 : 4 ≤ ((c0 :: s).flatten).length := by
    rw [List.flatten_cons, List.length_append]
    omega
  obtain ⟨hq1, hq2, hq3⟩ := recv1_single_spec (c0 :: s).flatten hF4
  have htake : (c0 :: s).flatten.take 4 = c0.take 4 := by
    rw [List.flatten_cons, List.take_append_eq_append_take,
      show (4 : Nat) - c0.length = 0 from by omega]
    simp
  rw [readMessage_take _ hp3, readMessage_take _ hq3, hp1, hp2, hq1, hq2, htake]

/-- Single-character encodings are nonempty. -/
theorem utf8EncodeChar_ne_nil (c : Char) : utf8EncodeChar c ≠ [] := by
  unfold utf8EncodeChar
  split_ifs <;> simp

/-- The encoded payload of a serialized value is nonempty. -/
theorem utf8Encode_dumps_len (v : Json) : 1 ≤ (utf8Encode (dumps v)).length := by
  cases hd : dumps v with
  | nil => exact absurd hd (dumps_ne_nil v)
  | cons c t =>
    rw [show utf8Encode (c :: t) = utf8EncodeChar c ++ utf8Encode t from rfl]
    cases he : utf8EncodeChar c with
    | nil => exact absurd he (utf8EncodeChar_ne_nil c)
    | cons b bs => simp

/-- Core of the round-trip claim: a framed request decodes back to the value
it was built from, provided its payload fits the 4-byte length prefix. -/
theorem readMessage_encodeMessage (v : Json)
    (h : (utf8Encode (dumps v)).length < 2 ^ 32) :
    readMessage [encodeMessage v] = Except.ok v := by
  have hplen := utf8Encode_dumps_len v
  have hmsg : encodeMessage v =
      toBytes4 (utf8Encode (dumps v)).length ++ utf8Encode (dumps v) := rfl
  have hmlen4 : 4 ≤ (encodeMessage v).length := by
    rw [hmsg, List.length_append]
    simp [toBytes4]
  obtain ⟨hq1, hq2, hq3⟩ := recv1_single_spec (encodeMessage v) hmlen4
  rw [readMessage_take _ hq3, hq1, hq2]
  have htake : (encodeMessage v).take 4 = toBytes4 (utf8Encode (dumps v)).length := by
    rw [hmsg, List.take_append_eq_append_take, show (toBytes4 (utf8Encode (dumps v)).length).length = 4 from rfl]
    rw [List.take_of_length_le (by rw [show (toBytes4 (utf8Encode (dumps v)).length).length = 4 from rfl])]
    simp
  have hdrop : (encodeMessage v).drop 4 = utf8Encode (dumps v) := by
    rw [hmsg, List.drop_append_eq_append_drop,
      show (toBytes4 (utf8Encode (dumps v)).length).length = 4 from rfl,
      List.drop_of_length_le (by rw [show (toBytes4 (utf8Encode (dumps v)).length).length = 4 from rfl])]
    simp
  rw [htake, hdrop, fromBytesBE_toBytes4 _ h, List.take_length,
    utf8Decode_utf8Encode_ascii _ (dumps_ascii v)]
  simp [loads_dumps v]

/-! ## Test harness lemmas -/

/-- Closed form of `run_test`: its boolean result is the pure pass
predicate, the run counter always increments by one, and the passed counter
increments exactly on a pass. -/
theorem run_test_eq (st : TesterState) (tc : TestCase) (res : Except ClientError Json) :
    run_test st tc res = (test_passes tc res,
      ⟨st.tests_run + 1, st.tests_passed + (test_passes tc res).toNat⟩) := by
  cases res with
  | error e => rfl
  | ok r =>
    simp only [run_test, test_passes, validation_result]
    cases getField r statusKey with
    | error u => rfl
    | ok status =>
      dsimp only
      cases tc.validation_func with
      | none =>
        dsimp only
        by_cases hs : statusMatches status tc.expected_status = true <;> simp [hs]
      | some f =>
        dsimp only
        cases f r with
        | none => simp
        | some b =>
          dsimp only
          by_cases hs : statusMatches status tc.expected_status = true <;>
            cases b <;> simp [hs]

/-- `run_test` increments the run counter exactly once, on every path. -/
theorem run_test_tests_run (st : TesterState) (tc : TestCase)
    (res : Except ClientError Json) :
    (run_test st tc res).2.tests_run = st.tests_run + 1 := by
  rw [run_test_eq]

/-- The boolean returned by `run_test` is the pure pass predicate. -/
theorem run_test_fst (st : TesterState) (tc : TestCase) (res : Except ClientError Json) :
    (run_test st tc res).1 = test_passes tc res := by
  rw [run_test_eq]

/-- `run_test` increments the passed counter exactly when the test passes. -/
theorem run_test_tests_passed (st : TesterState) (tc : TestCase)
    (res : Except ClientError Json) :
    (run_test st tc res).2.tests_passed =
      st.tests_passed + (test_passes tc res).toNat := by
  rw [run_test_eq]

/-- The suite records one boolean per test, each computed by the pure pass
predicate, independently of the other tests' outcomes. -/
theorem run_test_suite_results (st : TesterState) :
    ∀ steps : List (TestCase × Except ClientError Json),
    (run_test_suite st steps).1 = steps.map (fun p => test_passes p.1 p.2) := by
  intro steps
  induction steps generalizing st with
  | nil => rfl
  | cons p rest ih =>
    obtain ⟨tc, res⟩ := p
    simp only [run_test_suite, List.map_cons]
    rw [run_test_fst, ih]

/-- The suite runs every test: the run counter grows by the number of
tests. -/
theorem run_test_suite_tests_run (st : TesterState) :
    ∀ steps : List (TestCase × Except ClientError Json),
    (run_test_suite st steps).2.tests_run = st.tests_run + steps.length := by
  intro steps
  induction steps generalizing st with
  | nil => rfl
  | cons p rest ih =>
    obtain ⟨tc, res⟩ := p
    simp only [run_test_suite, List.length_cons]
    rw [ih, run_test_tests_run]
    omega

/-- The passed counter counts exactly the passing tests. -/
theorem run_test_suite_tests_passed (st : TesterState) :
    ∀ steps : List (TestCase × Except ClientError Json),
    (run_test_suite st steps).2.tests_passed =
      st.tests_passed + steps.countP (fun p => test_passes p.1 p.2) := by
  intro steps
  induction steps generalizing st with
  | nil => rfl
  | cons p rest ih =>
    obtain ⟨tc, res⟩ := p
    simp only [run_test_suite, List.countP_cons]
    rw [ih, run_test_tests_passed]
    by_cases hp : test_passes tc res = true <;> simp [hp] <;> omega

/-- The receive loop returns nothing at EOF. -/
theorem recvLoop_nil (need : Nat) : recvLoop need [] = [] := by
  unfold recvLoop
  exact recvLoopF_succ_nil need need []

/-! ## Claims -/

/-- C1 counterexample. The claim says a short length prefix raises a
`FramingError` rather than producing a length value. In the code, the single
`recv(4)` result — here one byte, `0` — is fed straight to `int.from_bytes`,
which produces the length `0`; the call then fails later, inside
`json.loads`, with a `JSONDecodeError`, and no framing-specific exception
exists anywhere in the source. A stream delivering the two bytes `1, 49`
and then EOF even decodes successfully to the JSON number `1`. -/
theorem claim_C1_counterexample :
    fromBytesBE (recv1 4 [[0]]).1 = 0 ∧
    readMessage [[0]] = Except.error DecodeError.jsonError ∧
    readMessage [[1], [49]] = Except.ok (Json.num 1) :=
  ⟨rfl, rfl, rfl⟩

/-- C1 (amended): the client performs a single `recv(4)` which may return
fewer than 4 bytes; whatever bytes arrive before EOF are interpreted by
`int.from_bytes` as the big-endian length — no `FramingError` is raised, as
no such exception exists in the code. For every stream delivering all of its
fewer-than-four bytes in that first read and then EOF, the accumulated
payload is empty and the call fails with a `json.loads` decode error
instead. -/
theorem claim_C1_amended (bs : List Nat) (h : bs.length < 4) :
    (recv1 4 [bs]).1 = bs ∧
    readMessage [bs] = Except.error DecodeError.jsonError := by
  have hle : bs.length ≤ 4 := by omega
  constructor
  · simp [recv1, hle]
  · rw [readMessage_def]
    have h2 : (recv1 4 [bs]).2 = [] := by simp [recv1, hle]
    rw [h2, recvLoop_nil]
    rfl

/-- C1 witness: the amended statement at the one-byte stream `[7]`. -/
theorem claim_C1_witness :
    ([7] : List Nat).length < 4 ∧
    ((recv1 4 [[7]]).1 = [7] ∧
      readMessage [[7]] = Except.error DecodeError.jsonError) :=
  ⟨by decide, claim_C1_amended [7] (by decide)⟩

/-- C2: round trip. For every JSON value `R`, decoding the bytes produced by
encoding `R` — a 4-byte big-endian length prefix followed by the UTF-8 JSON
serialization of `R` — yields `R`, provided the payload length fits the
prefix (Python's `to_bytes(4, "big")` raises `OverflowError` otherwise). -/
theorem claim_C2 (v : Json) (h : (utf8Encode (dumps v)).length < 2 ^ 32) :
    readMessage [encodeMessage v] = Except.ok v :=
  readMessage_encodeMessage v h

/-- C2 witness: the round trip at the request
`\x7b"command": "status", "params": \x7b\x7d\x7d`. -/
theorem claim_C2_witness :
    (utf8Encode (dumps (Json.obj (.cons ['c', 'o', 'm', 'm', 'a', 'n', 'd']
      (Json.str ['s', 't', 'a', 't', 'u', 's'])
      (.cons ['p', 'a', 'r', 'a', 'm', 's'] (Json.obj .nil) .nil))))).length < 2 ^ 32 ∧
    readMessage [encodeMessage (Json.obj (.cons ['c', 'o', 'm', 'm', 'a', 'n', 'd']
      (Json.str ['s', 't', 'a', 't', 'u', 's'])
      (.cons ['p', 'a', 'r', 'a', 'm', 's'] (Json.obj .nil) .nil)))] =
    Except.ok (Json.obj (.cons ['c', 'o', 'm', 'm', 'a', 'n', 'd']
      (Json.str ['s', 't', 'a', 't', 'u', 's'])
      (.cons ['p', 'a', 'r', 'a', 'm', 's'] (Json.obj .nil) .nil))) :=
  ⟨by decide, claim_C2 _ (by decide)⟩

/-- C3 counterexample. The claim says every chunking of an encoded message —
including splits inside the 4-byte length prefix — decodes like a single
read. The encoded message for the empty JSON object is the six bytes
`0,0,0,2,123,125`; delivered whole it decodes to the empty object, but split
as `[0] / [0,0,2,123,125]` the single `recv(4)` returns only the first byte,
the length decodes as `0`, and the call fails with a JSON decode error. -/
theorem claim_C3_counterexample :
    List.flatten [[0], [0, 0, 2, 123, 125]] = encodeMessage (Json.obj .nil) ∧
    readMessage [[0, 0, 0, 2, 123, 125]] = Except.ok (Json.obj .nil) ∧
    readMessage [[0], [0, 0, 2, 123, 125]] = Except.error DecodeError.jsonError :=
  ⟨rfl, rfl, rfl⟩

/-- C3 (amended): chunk-boundary resilience holds for every split whose
first read returns at least the whole 4-byte length prefix; the payload may
be split arbitrarily into nonempty chunks, and the decoded response equals
that of delivering the whole encoded message in a single read. -/
theorem claim_C3_amended (v : Json) (c0 : List Nat) (s : List (List Nat))
    (hflat : (c0 :: s).flatten = encodeMessage v)
    (hne : ∀ c ∈ s, c ≠ []) (h4 : 4 ≤ c0.length) :
    readMessage (c0 :: s) = readMessage [encodeMessage v] := by
  rw [← hflat]
  exact readMessage_flatten c0 s hne h4

/-- C3 witness: the amended statement with the empty-object message split
into prefix, `123`, and `125`. -/
theorem claim_C3_witness :
    (List.flatten [[0, 0, 0, 2], [123], [125]] = encodeMessage (Json.obj .nil)) ∧
    readMessage [[0, 0, 0, 2], [123], [125]] = readMessage [encodeMessage (Json.obj .nil)] :=
  ⟨rfl, claim_C3_amended (Json.obj .nil) [0, 0, 0, 2] [[123], [125]] rfl
    (by decide) (by decide)⟩

/-- C4: aggregate-counter invariant. Starting from the zero counters of
`MCPGitTester.__init__`, after any prefix of a test-suite run the passed
counter is at most the run counter; and after the whole suite, passed equals
run exactly when every executed test satisfied both its expected-status
check and its validation check. -/
theorem claim_C4 (steps : List (TestCase × Except ClientError Json)) :
    (∀ k, (run_test_suite initialState (steps.take k)).2.tests_passed ≤
          (run_test_suite initialState (steps.take k)).2.tests_run) ∧
    ((run_test_suite initialState steps).2.tests_passed =
        (run_test_suite initialState steps).2.tests_run ↔
      ∀ p ∈ steps, test_passes p.1 p.2 = true) := by
  constructor
  · intro k
    rw [run_test_suite_tests_run, run_test_suite_tests_passed]
    simp only [initialState, Nat.zero_add]
    exact List.countP_le_length _
  · rw [run_test_suite_tests_run, run_test_suite_tests_passed]
    simp only [initialState, Nat.zero_add]
    exact List.countP_eq_length

/-- C5: a single `run_test` invocation passes — returns `True` and
increments the passed counter — exactly when the response arrived, its
`status` field could be read and equals the expected status string, and the
validation outcome (defaulting to true when no validation function is
configured) is true; in every other outcome it returns `False` and leaves
the passed counter unchanged. -/
theorem claim_C5 (st : TesterState) (tc : TestCase) (res : Except ClientError Json) :
    ((run_test st tc res).1 = true ↔
      ∃ r, res = Except.ok r ∧
        (∃ status, getField r statusKey = Except.ok status ∧
          statusMatches status tc.expected_status = true) ∧
        (validation_result tc r).getD false = true) ∧
    (run_test st tc res).2.tests_passed =
      (if (run_test st tc res).1 = true then st.tests_passed + 1 else st.tests_passed) := by
  constructor
  · rw [run_test_fst]
    unfold test_passes
    cases res with
    | error e => simp
    | ok r =>
      cases hg : getField r statusKey with
      | error u => simp [hg]
      | ok status => simp [hg]
  · rw [run_test_tests_passed, run_test_fst]
    cases test_passes tc res <;> simp

/-- C6: harness independence. Every test in the suite executes: the suite
produces one boolean per test, each computed by the pure per-test pass
predicate independently of the other tests, and the run counter ends at the
number of tests; an exception from the command client makes that one test
report `False` instead of propagating. -/
theorem claim_C6 (steps : List (TestCase × Except ClientError Json)) :
    (run_test_suite initialState steps).1 =
      steps.map (fun p => test_passes p.1 p.2) ∧
    (run_test_suite initialState steps).2.tests_run = steps.length ∧
    (∀ (st : TesterState) (tc : TestCase) (e : ClientError),
      (run_test st tc (Except.error e)).1 = false) := by
  refine ⟨run_test_suite_results initialState steps, ?_, ?_⟩
  · rw [run_test_suite_tests_run]
    simp [initialState]
  · intro st tc e
    rfl

/-- C7: every `run_test` invocation — pass, check failure, or exception —
increments the run counter by exactly one. -/
theorem claim_C7 (st : TesterState) (tc : TestCase) (res : Except ClientError Json) :
    (run_test st tc res).2.tests_run = st.tests_run + 1 :=
  run_test_tests_run st tc res

/-- C8: a validation function that raises on the response makes the test
fail: `run_test` returns `False`, the passed counter is unchanged, the run
counter still increments, and the exception is not propagated (the function
returns normally). -/
theorem claim_C8 (st : TesterState) (tc : TestCase) (r : Json) (f : Json → Option Bool)
    (hv : tc.validation_func = some f) (hr : f r = none) :
    (run_test st tc (Except.ok r)).1 = false ∧
    (run_test st tc (Except.ok r)).2.tests_passed = st.tests_passed ∧
    (run_test st tc (Except.ok r)).2.tests_run = st.tests_run + 1 := by
  have hfp : test_passes tc (Except.ok r) = false := by
    simp only [test_passes, validation_result]
    cases hg : getField r statusKey with
    | error u => rfl
    | ok status =>
      rw [hv]
      simp [hr]
  refine ⟨?_, ?_, run_test_tests_run st tc _⟩
  · rw [run_test_fst, hfp]
  · rw [run_test_tests_passed, hfp]
    rfl

/-- C8 witness: a validation function that always raises, against the empty
object response. -/
theorem claim_C8_witness :
    (TestCase.mk [] [] .nil ['s', 'u', 'c', 'c', 'e', 's', 's']
        (some (fun _ => none))).validation_func = some (fun _ => none) ∧
    (fun (_ : Json) => (none : Option Bool)) (Json.obj .nil) = none ∧
    ((run_test ⟨5, 3⟩ (TestCase.mk [] [] .nil ['s', 'u', 'c', 'c', 'e', 's', 's']
        (some (fun _ => none))) (Except.ok (Json.obj .nil))).1 = false ∧
      (run_test ⟨5, 3⟩ (TestCase.mk [] [] .nil ['s', 'u', 'c', 'c', 'e', 's', 's']
        (some (fun _ => none))) (Except.ok (Json.obj .nil))).2.tests_passed = 3 ∧
      (run_test ⟨5, 3⟩ (TestCase.mk [] [] .nil ['s', 'u', 'c', 'c', 'e', 's', 's']
        (some (fun _ => none))) (Except.ok (Json.obj .nil))).2.tests_run = 5 + 1) :=
  ⟨rfl, rfl, claim_C8 ⟨5, 3⟩ _ (Json.obj .nil) (fun _ => none) rfl rfl⟩

/-- C9: on every execution path of `send_command` — normal return,
connection failure, send failure, oversized payload, and either decode
failure — the socket is closed before the call returns: the last socket
lifecycle event is always `closed`. -/
theorem claim_C9 (connectOk sendOk : Bool) (command : List Char) (params : JsonObj)
    (stream : List (List Nat)) :
    (send_command connectOk sendOk command params stream).2.getLast? =
      some SocketEvent.closed := by
  cases connectOk with
  | false => rfl
  | true =>
    cases sendOk with
    | false =>
      simp only [send_command]
      rw [if_neg (by decide)]
      split
      · rw [if_pos (by decide)]
        rfl
      · rfl
    | true =>
      simp only [send_command]
      rw [if_neg (by decide)]
      split
      · rw [if_neg (by decide)]
        cases readMessage stream with
        | error e => cases e <;> rfl
        | ok r => rfl
      · rfl

/-- C10 (implicit): a decoded response object with no `"status"` field never
passes: `response.get("status")` yields `None`, which never equals the
expected status string (`"success"` or `"error"`), so `run_test` returns
`False` and leaves the passed counter unchanged. -/
theorem claim_C10 (st : TesterState) (tc : TestCase) (ms : JsonObj)
    (hm : lookupKey statusKey ms = none)
    (he : tc.expected_status = ['s', 'u', 'c', 'c', 'e', 's', 's'] ∨
          tc.expected_status = ['e', 'r', 'r', 'o', 'r']) :
    (run_test st tc (Except.ok (Json.obj ms))).1 = false ∧
    (run_test st tc (Except.ok (Json.obj ms))).2.tests_passed = st.tests_passed := by
  have hfp : test_passes tc (Except.ok (Json.obj ms)) = false := by
    simp only [test_passes]
    rw [show getField (Json.obj ms) statusKey = Except.ok (lookupKey statusKey ms)
      from rfl, hm]
    simp [statusMatches]
  constructor
  · rw [run_test_fst, hfp]
  · rw [run_test_tests_passed, hfp]
    rfl

/-- C10 witness: the empty response object against the default
`expected_status = "success"`. -/
theorem claim_C10_witness :
    lookupKey statusKey .nil = none ∧
    (['s', 'u', 'c', 'c', 'e', 's', 's'] = ['s', 'u', 'c', 'c', 'e', 's', 's'] ∨
      (['s', 'u', 'c', 'c', 'e', 's', 's'] : List Char) = ['e', 'r', 'r', 'o', 'r']) ∧
    ((run_test ⟨2, 2⟩ (TestCase.mk [] [] .nil ['s', 'u', 'c', 'c', 'e', 's', 's'] none)
        (Except.ok (Json.obj .nil))).1 = false ∧
      (run_test ⟨2, 2⟩ (TestCase.mk [] [] .nil ['s', 'u', 'c', 'c', 'e', 's', 's'] none)
        (Except.ok (Json.obj .nil))).2.tests_passed = 2) :=
  ⟨rfl, Or.inl rfl,
    claim_C10 ⟨2, 2⟩ (TestCase.mk [] [] .nil ['s', 'u', 'c', 'c', 'e', 's', 's'] none)
      .nil rfl (Or.inl rfl)⟩
